import Mathlib

/-!
Verification development for the virtual-console repository.

The JavaScript sources are shallowly embedded: JS strings become `List Char`,
JS values become an inductive type together with an explicit heap of object
nodes (so that cyclic object graphs are representable), operations that can
throw return `Except Unit`, and the recursive stringifiers take explicit fuel
(their termination on every well-formed heap is proved as a theorem).
-/

deriving instance DecidableEq for Except

namespace VCSpec

/-- JS strings are modelled as lists of characters. -/
abbrev Str := List Char

/-- `String.prototype.replaceAll(pat, rep)` with a one-character pattern:
the leftmost-match scan touches each character exactly once, so it is
character-wise substitution. -/
def substChar : Str → Char → Str → Str
  | [], _, _ => []
  | x :: rest, c, rep => (if x = c then rep else [x]) ++ substChar rest c rep

/-- Characters of a substitution result: an original character different
from the pattern, or a character of the replacement. -/
theorem mem_substChar {x c : Char} {rep : Str} :
    ∀ {s : Str}, x ∈ substChar s c rep → (x ∈ s ∧ x ≠ c) ∨ x ∈ rep := by
  intro s
  induction s with
  | nil => intro h; simp [substChar] at h
  | cons a rest ih =>
    intro h
    rw [substChar] at h
    rcases List.mem_append.mp h with h1 | h2
    · by_cases hac : a = c
      · rw [if_pos hac] at h1; exact Or.inr h1
      · rw [if_neg hac] at h1
        rcases List.mem_singleton.mp h1 with rfl
        exact Or.inl ⟨List.mem_cons_self _ _, hac⟩
    · rcases ih h2 with ⟨hs, hne⟩ | hr
      · exact Or.inl ⟨List.mem_cons_of_mem _ hs, hne⟩
      · exact Or.inr hr

/-- Substituting a character away removes it, provided the replacement does
not contain it. -/
theorem not_mem_substChar {c : Char} {rep : Str} (hrep : c ∉ rep) :
    ∀ {s : Str}, c ∉ substChar s c rep := by
  intro s h
  rcases mem_substChar h with ⟨_, hne⟩ | hr
  · exact hne rfl
  · exact hrep hr

/-- `substChar` distributes over concatenation. -/
theorem substChar_append (a b : Str) (c : Char) (rep : Str) :
    substChar (a ++ b) c rep = substChar a c rep ++ substChar b c rep := by
  induction a with
  | nil => simp [substChar]
  | cons x rest ih => simp [substChar, ih]

/-- `String.prototype.replaceAll(pat, rep)` with a general pattern:
leftmost, non-overlapping replacement, never rescanning a replacement.  The
fuel (one unit per consumed character) makes the definition structurally
recursive; the wrapper supplies `s.length`, which the scan never exhausts. -/
def replaceAllF : Nat → Str → Str → Str → Str
  | 0, s, _, _ => s
  | _ + 1, s, [], _ => s
  | _ + 1, [], _ :: _, _ => []
  | fuel + 1, c :: rest, p :: ps, rep =>
    if (p :: ps).isPrefixOf (c :: rest) then
      rep ++ replaceAllF fuel ((c :: rest).drop (p :: ps).length) (p :: ps) rep
    else
      c :: replaceAllF fuel rest (p :: ps) rep

def replaceAll (s pat rep : Str) : Str := replaceAllF s.length s pat rep

/-- `escapeHtml` from util.mjs: sequentially replaces the ampersand, the
double quote, the less-than sign and the greater-than sign by their HTML
entities (each a one-character-pattern `replaceAll`). -/
def escapeHtml (str : Str) : Str :=
  substChar
    (substChar
      (substChar
        (substChar str '&' ("&amp;".toList))
        '\x22' ("&quot;".toList))
      '<' ("&lt;".toList))
    '>' ("&gt;".toList)

theorem escapeHtml_no_quote (s : Str) : '\x22' ∉ escapeHtml s := by
  intro h
  unfold escapeHtml at h
  rcases mem_substChar h with ⟨h1, _⟩ | hr
  · rcases mem_substChar h1 with ⟨h2, _⟩ | hr2
    · exact not_mem_substChar (by decide) h2
    · simp at hr2
  · simp at hr

theorem escapeHtml_no_lt (s : Str) : '<' ∉ escapeHtml s := by
  intro h
  unfold escapeHtml at h
  rcases mem_substChar h with ⟨h1, _⟩ | hr
  · exact not_mem_substChar (by decide) h1
  · simp at hr

theorem escapeHtml_no_gt (s : Str) : '>' ∉ escapeHtml s := by
  intro h
  unfold escapeHtml at h
  exact not_mem_substChar (by decide) h

/-- A property key: JS objects carry string keys and symbol keys. -/
inductive Key where
  | str (s : Str)
  | sym (s : Str)
deriving DecidableEq

/-- A JS value.  Objects are represented by references into an explicit heap,
so cyclic object graphs are expressible.  Numbers carry their display string
(the embedding never needs numeric arithmetic).  Errors, dates, regexps and
functions are modelled as leaves: the embedded code never traverses their own
enumerable properties, which are absent on standard instances. -/
inductive Val where
  | vstr (s : Str)
  | vnum (rep : Str)
  | vbool (b : Bool)
  | vnull
  | vundef
  | vsym (desc : Str)
  | vfunc (name src : Str)
  | verr (name msg : Str) (stack : Option Str)
  | vdate (iso : Str)
  | vregex (r : Str)
  | vref (id : Nat)
deriving DecidableEq

/-- One heap object: array flag, whether it was created without a prototype
(`Object.create(null)`), and its own enumerable fields in order (string keys
first, then symbol keys, as the source enumerates them). -/
structure Node where
  isArray : Bool
  protoNull : Bool
  fields : List (Key × Val)
deriving DecidableEq

/-- The heap: node `id` is `g.get? id`. -/
abbrev Heap := List Node

/-- A value's references stay inside the heap. -/
def ValWf (g : Heap) : Val → Prop
  | .vref id => id < g.length
  | _ => True

instance (g : Heap) (v : Val) : Decidable (ValWf g v) := by
  cases v <;> simp only [ValWf] <;> infer_instance

/-- Every field of every node references inside the heap. -/
def HeapWf (g : Heap) : Prop :=
  ∀ nd ∈ g, ∀ kv ∈ nd.fields, ValWf g kv.2

instance (g : Heap) : Decidable (HeapWf g) := by
  unfold HeapWf; infer_instance

/-- `arg instanceof Error` (with a truthy `.stack`): JS treats an empty stack
string as absent. -/
def errStack : Val → Option Str
  | .verr _ _ (some st) => if st = [] then none else some st
  | _ => none

/-- The JS test `(arg === null || arg instanceof Object) && !(arg instanceof
Function)`.  A prototype-less object is not `instanceof Object` because the
check walks the prototype chain. -/
def isObjNotFunc (g : Heap) : Val → Bool
  | .vnull => true
  | .vref id =>
    match g.get? id with
    | some nd => !nd.protoNull
    | none => false
  | .verr _ _ _ => true
  | .vdate _ => true
  | .vregex _ => true
  | _ => false

/-- String conversion of primitive (non-reference) values, as `String(x)`
performs it.  Platform-modelled: dates display their ISO form and functions
their source text. -/
def primToString : Val → Str
  | .vstr s => s
  | .vnum r => r
  | .vbool b => if b then "true".toList else "false".toList
  | .vnull => "null".toList
  | .vundef => "undefined".toList
  | .vsym d => "Symbol(".toList ++ d ++ [')']
  | .vfunc _ src => src
  | .verr n m _ => if m = [] then n else n ++ ": ".toList ++ m
  | .vdate iso => iso
  | .vregex r => r
  | .vref _ => []

/-- String conversion of one array element during `Array.prototype.join`
(the conversion `String(array)` performs): null and undefined render empty, a
reference already on the conversion stack renders empty (the platform cycle
guard), a prototype-less object throws, a nested array joins its own elements
with commas.  Structural on the fuel, which bounds nesting depth. -/
def arrElemF (g : Heap) : Nat → List Nat → Val → Except Unit Str
  | _, _, .vnull => .ok []
  | _, _, .vundef => .ok []
  | fuel, stack, .vref id =>
    if id ∈ stack then .ok []
    else
      match fuel with
      | 0 => .error ()
      | f + 1 =>
        match g.get? id with
        | none => .ok []
        | some nd =>
          if nd.protoNull then .error ()
          else if nd.isArray then do
            let parts ← nd.fields.mapM (fun kv => arrElemF g f (id :: stack) kv.2)
            .ok (List.intercalate [','] parts)
          else .ok ("[object Object]".toList)
  | _, _, v => .ok (primToString v)

/-- `String(arg)`: throws (`Except.error`) exactly when the argument is a
prototype-less object, which has no inherited `toString`. -/
def jsToString (g : Heap) (v : Val) : Except Unit Str :=
  match v with
  | .vref id =>
    match g.get? id with
    | none => .ok ("[object Object]".toList)
    | some nd =>
      if nd.protoNull then .error ()
      else if nd.isArray then do
        let parts ← nd.fields.mapM (fun kv => arrElemF g (g.length + 2) [id] kv.2)
        .ok (List.intercalate [','] parts)
      else .ok ("[object Object]".toList)
  | p => .ok (primToString p)

/-- `Object.prototype.toString.call(arg)` for the values that can reach the
last fallback of `safeString`. -/
def protoToString (g : Heap) : Val → Str
  | .vref id =>
    match g.get? id with
    | some nd => if nd.isArray then "[object Array]".toList else "[object Object]".toList
    | none => "[object Object]".toList
  | _ => "[object Object]".toList

/-- JSON string-literal escaping for one character (the common escapes;
other control characters are approximated as themselves). -/
def jsonEscapeChar (c : Char) : Str :=
  if c = '\x22' then ['\x5c', '\x22']
  else if c = '\x5c' then ['\x5c', '\x5c']
  else if c = '\n' then ['\x5c', 'n']
  else if c = '\t' then ['\x5c', 't']
  else if c = '\r' then ['\x5c', 'r']
  else [c]

/-- A JSON string literal. -/
def jsonQuote (s : Str) : Str :=
  '\x22' :: (s.flatMap jsonEscapeChar) ++ ['\x22']

/-- Indentation of `depth` tab characters (`JSON.stringify(x, null, '\t')`). -/
def tabs (depth : Nat) : Str := List.replicate depth '\t'

/-- Rendering of a non-empty pretty or compact JSON array from its rendered
elements. -/
def renderJsonArr (ind : Bool) (d : Nat) (items : List Str) : Str :=
  if items = [] then "[]".toList
  else if ind then
    '[' :: '\n' :: (List.intercalate (",\n".toList) (items.map (tabs (d + 1) ++ ·)))
      ++ '\n' :: tabs d ++ [']']
  else '[' :: (List.intercalate [','] items) ++ [']']

/-- Rendering of a pretty or compact JSON object from its rendered
`"key": value` entries. -/
def renderJsonObj (ind : Bool) (d : Nat) (entries : List Str) : Str :=
  if entries = [] then "\x7b\x7d".toList
  else if ind then
    '\x7b' :: '\n' :: (List.intercalate (",\n".toList) (entries.map (tabs (d + 1) ++ ·)))
      ++ '\n' :: tabs d ++ ['\x7d']
  else '\x7b' :: (List.intercalate [','] entries) ++ ['\x7d']

/-- One string-keyed field list (symbol keys are not serialized at all, so
no cycle can be detected through them). -/
def strFields (fields : List (Key × Val)) : List (Str × Val) :=
  fields.filterMap (fun kv =>
    match kv.1 with
    | .str ks => some (ks, kv.2)
    | .sym _ => none)

/-- `JSON.stringify(v)` (compact when `ind = false`, indented with tabs when
`ind = true`).  Returns `none` where the platform returns the undefined value
(functions, symbols, undefined), and throws (`Except.error`) on a cyclic
structure, detected through the serialization stack.  In an array, an element
serializing to the undefined value renders as `null`; in an object such a
pair is skipped.  Structural on the fuel, which bounds nesting depth. -/
def jsonValF (g : Heap) (ind : Bool) : Nat → List Nat → Nat → Val → Except Unit (Option Str)
  | _, _, _, .vstr s => .ok (some (jsonQuote s))
  | _, _, _, .vnum r => .ok (some r)
  | _, _, _, .vbool b => .ok (some (if b then "true".toList else "false".toList))
  | _, _, _, .vnull => .ok (some ("null".toList))
  | _, _, _, .vundef => .ok none
  | _, _, _, .vsym _ => .ok none
  | _, _, _, .vfunc _ _ => .ok none
  | _, _, _, .verr _ _ _ => .ok (some ("\x7b\x7d".toList))
  | _, _, _, .vdate iso => .ok (some (jsonQuote iso))
  | _, _, _, .vregex _ => .ok (some ("\x7b\x7d".toList))
  | fuel, stack, d, .vref id =>
    if id ∈ stack then .error ()
    else
      match fuel with
      | 0 => .error ()
      | f + 1 =>
        match g.get? id with
        | none => .ok (some ("null".toList))
        | some nd =>
          if nd.isArray then do
            let rs ← nd.fields.mapM (fun kv => jsonValF g ind f (id :: stack) (d + 1) kv.2)
            .ok (some (renderJsonArr ind d (rs.map (fun r => r.getD ("null".toList)))))
          else do
            let rs ← (strFields nd.fields).mapM
              (fun kv => (jsonValF g ind f (id :: stack) (d + 1) kv.2).map (fun r => (kv.1, r)))
            let entries := rs.filterMap (fun kr =>
              kr.2.map (fun rv => jsonQuote kr.1 ++ (if ind then [':', ' '] else [':']) ++ rv))
            .ok (some (renderJsonObj ind d entries))

/-- `JSON.stringify(v)` / `JSON.stringify(v, null, '\t')`.  The fuel
`g.length + 2` exceeds the recursion depth, which the serialization stack
bounds by the number of heap nodes. -/
def jsonStringify (g : Heap) (ind : Bool) (v : Val) : Except Unit (Option Str) :=
  jsonValF g ind (g.length + 2) [] 0 v

/-- `safeString` from util.mjs: `String(arg)`, then `JSON.stringify(arg)`,
then `Object.prototype.toString.call(arg)`. -/
def safeString (g : Heap) (arg : Val) : Str :=
  match jsToString g arg with
  | .ok s => s
  | .error _ =>
    match jsonStringify g false arg with
    | .ok (some s) => s
    | .ok none => "undefined".toList
    | .error _ => protoToString g arg

/-- JS whitespace for `trim` / `parseInt` / `parseFloat`. -/
def isJsWs (c : Char) : Bool :=
  c = ' ' || c = '\t' || c = '\n' || c = '\r' || c = '\x0b' || c = '\x0c'

/-- Numeric value of a run of decimal digits. -/
def natOfDigits (ds : Str) : Nat :=
  ds.foldl (fun n c => n * 10 + (c.toNat - 48)) 0

/-- Leading sign splitting shared by the numeric parsers. -/
def splitSign (s : Str) : Bool × Str :=
  match s with
  | '-' :: r => (true, r)
  | '+' :: r => (false, r)
  | _ => (false, s)

/-- `String(parseInt(s))`.  Platform-modelled: decimal parsing (skip leading
whitespace, optional sign, longest digit run; no digits gives `NaN`); the
hexadecimal prefix form and the float formatting of very large values are not
modelled, no claim depends on them. -/
def parseIntD (s : Str) : Str :=
  let s1 := s.dropWhile isJsWs
  let (neg, s2) := splitSign s1
  let ds := s2.takeWhile Char.isDigit
  if ds.isEmpty then "NaN".toList
  else
    let n := natOfDigits ds
    (if neg ∧ n ≠ 0 then ['-'] else []) ++ (Nat.repr n).toList

/-- Digits with trailing zeros removed (fraction display). -/
def stripTrailingZeros (ds : Str) : Str :=
  (ds.reverse.dropWhile (· = '0')).reverse

/-- `String(parseFloat(s))`.  Platform-modelled: decimal parsing of
`[sign] digits [. digits]`; the exponent form and the exact double-rounding
display are approximated (no claim depends on `%f` output values). -/
def parseFloatD (s : Str) : Str :=
  let s1 := s.dropWhile isJsWs
  let (neg, s2) := splitSign s1
  let ipart := s2.takeWhile Char.isDigit
  let s3 := s2.drop ipart.length
  let fpart :=
    match s3 with
    | '.' :: r => r.takeWhile Char.isDigit
    | _ => []
  if ipart.isEmpty ∧ fpart.isEmpty then "NaN".toList
  else
    let ip := (Nat.repr (natOfDigits ipart)).toList
    let fp := stripTrailingZeros fpart
    (if neg ∧ (natOfDigits ipart ≠ 0 ∨ fp ≠ []) then ['-'] else [])
      ++ ip ++ (if fp.isEmpty then [] else '.' :: fp)

/-- ANSI color constants used by `circularToString`. -/
def colReset : Str := "\x1b[0m".toList

def colGreen : Str := "\x1b[32m".toList

def colYellow : Str := "\x1b[33m".toList

def colCyan : Str := "\x1b[36m".toList

def colGrey : Str := "\x1b[90m".toList

def colMagenta : Str := "\x1b[35m".toList

/-- The `circularIds` map: node id to its small sequential reference id. -/
abbrev Ids := List (Nat × Nat)

def lookupId (ids : Ids) (n : Nat) : Option Nat :=
  (ids.find? (fun p => p.1 == n)).map (·.2)

/-- Decimal rendering of a reference id. -/
def natStr (n : Nat) : Str := (Nat.repr n).toList

/-- The `scan` pass of `circularToString`: depth-first walk tracking the
active path (`walkStack`); a value already on the active path receives a
reference id if it has none yet.  Only references are traversed; primitives
(and the keyless leaf objects dates, regexps, errors and functions) have no
outgoing edges.  Structural on the fuel, which bounds the walk depth. -/
def scanF (g : Heap) : Nat → Val → List Nat → Ids × Nat → Option (Ids × Nat)
  | fuel, .vref id, stack, st =>
    if id ∈ stack then
      some (if lookupId st.1 id = none then ((id, st.2) :: st.1, st.2 + 1) else st)
    else
      match fuel with
      | 0 => none
      | f + 1 =>
        match g.get? id with
        | none => some st
        | some nd => nd.fields.foldlM (fun acc kv => scanF g f kv.2 (id :: stack) acc) st
  | _, _, _, st => some st

/-- Rendering of primitive values in the `format` pass (kind-specific ANSI
decoration).  An error value renders like a keyless object. -/
def fmtPrim : Val → Str
  | .vstr s => colGreen ++ '\x27' :: s ++ '\x27' :: colReset
  | .vnum r => colYellow ++ r ++ colReset
  | .vbool b => colYellow ++ (if b then "true".toList else "false".toList) ++ colReset
  | .vundef => colGrey ++ "undefined".toList ++ colReset
  | .vnull => colReset ++ "null".toList ++ colReset
  | .vsym d => colGreen ++ "Symbol(".toList ++ d ++ [')'] ++ colReset
  | .vfunc name _ =>
    colCyan ++ "[Function: ".toList
      ++ (if name = [] then "(anonymous)".toList else name) ++ [']'] ++ colReset
  | .vdate iso => colMagenta ++ iso ++ colReset
  | .vregex r => colMagenta ++ r ++ colReset
  | .verr _ _ _ => "\x7b\x7d".toList
  | .vref _ => []

/-- First character of the identifier-key regular expression
`[$A-Z_a-z]`. -/
def isIdentStart (c : Char) : Bool :=
  c = '$' || c = '_' || ('A' ≤ c && c ≤ 'Z') || ('a' ≤ c && c ≤ 'z')

/-- Continuation characters `[\w$]`. -/
def isIdentRest (c : Char) : Bool :=
  isIdentStart c || ('0' ≤ c && c ≤ '9')

/-- The test `/^[$A-Z_a-z][\w$]*$/`. -/
def isIdentKey : Str → Bool
  | [] => false
  | c :: rest => isIdentStart c && rest.all isIdentRest

/-- Key escaping: `'` then `\n`, each via `replaceAll`. -/
def keyEscape (s : Str) : Str :=
  replaceAll (replaceAll s ['\x27'] ['\x5c', '\x27']) ['\n'] ['\x5c', 'n']

/-- Rendering of one property key (arrays omit keys; symbol keys are
bracketed; non-identifier keys are quoted and escaped; `": "` follows). -/
def keyStr (isArr : Bool) (k : Key) : Str :=
  if isArr then []
  else
    let ks :=
      match k with
      | .sym d => '[' :: "Symbol(".toList ++ d ++ ")]".toList
      | .str s => s
    let ks2 := if isIdentKey ks then ks else '\x27' :: keyEscape ks ++ ['\x27']
    ks2 ++ [':', ' ']

/-- The depth-limit test `currentDepth > depth`; an absent depth option is
the default `Infinity`, which is never exceeded. -/
def depthHit : Option Nat → Nat → Bool
  | some dp, d => decide (dp < d)
  | none, _ => false

/-- The seen-set insertion `seen.add(value)` (a no-op on members). -/
def seenIns (id : Nat) (seen : List Nat) : List Nat :=
  if id ∈ seen then seen else id :: seen

/-- The `<ref *n>` prefix of a defining occurrence (empty without an id). -/
def refPfx (ids : Ids) (id : Nat) : Str :=
  match lookupId ids id with
  | some n => colCyan ++ "<ref *".toList ++ natStr n ++ ['>'] ++ colReset ++ [' ']
  | none => []

/-- Opening bracket of an array or object rendering. -/
def opCh (isArr : Bool) : Char := if isArr then '[' else '\x7b'

/-- Closing bracket of an array or object rendering. -/
def clCh (isArr : Bool) : Char := if isArr then ']' else '\x7d'

/-- One layer of the `format` pass of `circularToString`; `next` is the
recursion one fuel level down (`none` when the fuel is exhausted).  `seen`
is the mutable set of values on the active rendering path (a keyless object
is added and never removed, exactly as in the source); a value in `seen`
that carries a reference id renders as a back-reference marker; the defining
occurrence of such a value carries a `<ref *n>` prefix; fields are rendered
in order, threading `seen`, joined by `,\n` and indented one tab per
level. -/
def formatStep (g : Heap) (ids : Ids) (depth : Option Nat)
    (next : Option (Val → Nat → List Nat → Option (Str × List Nat))) :
    Val → Nat → List Nat → Option (Str × List Nat)
  | .vref id, d, seen =>
    if id ∈ seen ∧ lookupId ids id ≠ none then
      some (colCyan ++ "[Circular *".toList ++ natStr ((lookupId ids id).getD 0)
        ++ [']'] ++ colReset, seen)
    else if depthHit depth d then
      some (colCyan ++ "[Object]".toList ++ colReset, seen)
    else
      match next with
      | none => none
      | some rec =>
        match g.get? id with
        | none => some ([], seenIns id seen)
        | some nd =>
          if nd.fields = [] then
            some (refPfx ids id ++ [opCh nd.isArray, clCh nd.isArray], seenIns id seen)
          else do
            let (lines, seen2) ← nd.fields.foldlM
              (fun acc kv => do
                let (s, seen3) ← rec kv.2 (d + 1) acc.2
                some (acc.1 ++ [tabs (d + 1) ++ keyStr nd.isArray kv.1 ++ s], seen3))
              (([] : List Str), seenIns id seen)
            some (refPfx ids id ++ opCh nd.isArray :: '\n'
                :: List.intercalate (",\n".toList) lines
                ++ '\n' :: tabs d ++ [clCh nd.isArray], seen2.erase id)
  | v, _, seen => some (fmtPrim v, seen)

/-- The `format` pass with explicit fuel. -/
def formatF (g : Heap) (ids : Ids) (depth : Option Nat) :
    Nat → Val → Nat → List Nat → Option (Str × List Nat)
  | 0 => formatStep g ids depth none
  | f + 1 => formatStep g ids depth (some (formatF g ids depth f))

/-- `circularToString(target, { depth })` with explicit fuel: the scan pass
from an empty stack, then the format pass from an empty seen set with the
resulting reference ids. -/
def circularToStringF (fuel : Nat) (g : Heap) (depth : Option Nat) (target : Val) : Option Str := do
  let (ids, _) ← scanF g fuel target [] ([], 1)
  let (s, _) ← formatF g ids depth fuel target 0 []
  some s

/-- Total wrapper at the fuel `g.length + 2`, which the termination theorem
proves sufficient for every well-formed heap (so the default value is never
produced there). -/
def circularToString (g : Heap) (depth : Option Nat) (target : Val) : Str :=
  (circularToStringF (g.length + 2) g depth target).getD []

/-- One unit of a format template: a literal character or a two-character
specifier `%d`.  The list of items is the left-to-right, non-overlapping
match structure of the global specifier regular expression. -/
inductive Item where
  | chr (c : Char)
  | tok (d : Char)
deriving DecidableEq

/-- Tokenization of a template under a specifier class: `%` followed by a
class character forms a token, everything else is literal. -/
def scanTokensWith (cls : Char → Bool) : Str → List Item
  | [] => []
  | [c] => [.chr c]
  | c :: d :: rest =>
    if c = '%' ∧ cls d then .tok d :: scanTokensWith cls rest
    else .chr c :: scanTokensWith cls (d :: rest)

/-- The plain formatter's specifier class `/%[sdifoOc%]/g`. -/
def plainCls (d : Char) : Bool :=
  d = 's' || d = 'd' || d = 'i' || d = 'f' || d = 'o' || d = 'O' || d = 'c' || d = '%'

/-- The HTML formatter's specifier class `/%[%Ocdfijos]/g`. -/
def htmlCls (d : Char) : Bool :=
  d = '%' || d = 'O' || d = 'c' || d = 'd' || d = 'f' || d = 'i' || d = 'j' || d = 'o' || d = 's'

/-- Scan state of the plain formatter: accumulated output and next argument
index. -/
structure PState where
  out : Str
  idx : Nat
deriving DecidableEq

/-- Substitution of one consumed argument in the plain formatter
(`formatArgs` in browser.mjs).  `%c` consumes and discards; `%s` is the bare
`String(arg)` (which throws on a prototype-less object); `%o`/`%O` fall back
to `String(arg)` when serialization throws, and render the text `undefined`
when serialization returns the undefined value (string concatenation). -/
def plainSpecSub (g : Heap) (d : Char) (arg : Val) : Except Unit Str :=
  if d = 'c' then .ok []
  else if d = 's' then jsToString g arg
  else if d = 'd' ∨ d = 'i' then (jsToString g arg).map parseIntD
  else if d = 'f' then (jsToString g arg).map parseFloatD
  else if d = 'o' ∨ d = 'O' then
    match jsonStringify g true arg with
    | .ok r => .ok (r.getD ("undefined".toList))
    | .error _ => jsToString g arg
  else .ok []

/-- The plain formatter's scan loop over the template items. -/
def plainStepsF (g : Heap) (args : List Val) : List Item → PState → Except Unit PState
  | [], st => .ok st
  | .chr c :: rest, st => plainStepsF g args rest ⟨st.out ++ [c], st.idx⟩
  | .tok d :: rest, st =>
    if d = '%' then plainStepsF g args rest ⟨st.out ++ ['%'], st.idx⟩
    else if args.length ≤ st.idx then plainStepsF g args rest ⟨st.out ++ ['%', d], st.idx⟩
    else do
      let arg := (args.get? st.idx).getD .vundef
      let piece ← plainSpecSub g d arg
      plainStepsF g args rest ⟨st.out ++ piece, st.idx + 1⟩

/-- The plain formatter's loop over arguments left after the template: a
space when output is non-empty, then stack trace, JSON serialization (with
`String` fallback on throw) for objects, bare `String` otherwise. -/
def plainTrailing (g : Heap) : List Val → Str → Except Unit Str
  | [], out => .ok out
  | a :: rest, out => do
    let out1 := if out = [] then out else out ++ [' ']
    let piece ←
      match errStack a with
      | some st => .ok st
      | none =>
        if isObjNotFunc g a then
          match jsonStringify g true a with
          | .ok r => .ok (r.getD ("undefined".toList))
          | .error _ => jsToString g a
        else jsToString g a
    plainTrailing g rest (out1 ++ piece)

/-- Rendering of one argument when the first argument is not a string
(plain formatter): strings pass through, errors with stack render the stack,
everything else JSON-serializes with a bare `String` fallback on throw.
`none` is the undefined value, which `Array.prototype.join` renders empty. -/
def plainFirstRender (g : Heap) (a : Val) : Except Unit (Option Str) :=
  match a with
  | .vstr s => .ok (some s)
  | _ =>
    match errStack a with
    | some st => .ok (some st)
    | none =>
      match jsonStringify g true a with
      | .ok r => .ok r
      | .error _ => (jsToString g a).map some

/-- `[ ... ].join(' ')` where elements may be the undefined value. -/
def joinSpOpt (parts : List (Option Str)) : Str :=
  List.intercalate [' '] (parts.map (fun p => p.getD []))

/-- `formatArgs` from browser.mjs, in an exception monad: `Except.error`
exactly where the JS function would let an exception escape. -/
def formatArgsE (g : Heap) (args : List Val) : Except Unit Str :=
  match args with
  | [] => .ok []
  | f :: _ =>
    match f with
    | .vstr t => do
      let st ← plainStepsF g args (scanTokensWith plainCls t) ⟨[], 1⟩
      plainTrailing g (args.drop st.idx) st.out
    | _ => do
      let parts ← args.mapM (plainFirstRender g)
      .ok (joinSpOpt parts)

/-- Modelled from the spec: the external ANSI-escape-to-HTML converter
(`ansi_up.ansi_to_html`), an external collaborator specified at its interface
boundary — literal text passes through it so that markup-significant
characters are escaped and embedded ANSI color codes become inline style
spans.  The model HTML-escapes the text; ANSI escape sequences are not
interpreted (the claims that quantify over templates are stated for, or
witnessed on, ANSI-free text). -/
def ansi_to_html (s : Str) : Str :=
  s.flatMap (fun c =>
    if c = '&' then "&amp;".toList
    else if c = '<' then "&lt;".toList
    else if c = '>' then "&gt;".toList
    else [c])

/-- `argToHtml` from util.mjs: stack trace for errors carrying one, JSON
serialization for objects, and the structural stringifier otherwise or when
serialization fails (the catch also covers the converter throwing on the
undefined value). -/
def argToHtml (g : Heap) (conv : Str → Str) (arg : Val) : Str :=
  match errStack arg with
  | some st => conv st
  | none =>
    if isObjNotFunc g arg then
      match jsonStringify g true arg with
      | .ok (some r) => conv r
      | _ => conv (circularToString g none arg)
    else conv (circularToString g none arg)

/-- Scan state of the HTML formatter. -/
structure HState where
  out : Str
  idx : Nat
  hasStyle : Bool
deriving DecidableEq

/-- The HTML formatter's replacement of successive specifier matches
(`html.replace(regex, ...)` in `argsToHtml`).  `%c` closes the current style
container and opens one whose style attribute is the HTML-attribute-escaped
`safeString` of the argument. -/
def htmlStepsF (g : Heap) (conv : Str → Str) (args : List Val) : List Item → HState → HState
  | [], st => st
  | .chr c :: rest, st => htmlStepsF g conv args rest ⟨st.out ++ [c], st.idx, st.hasStyle⟩
  | .tok d :: rest, st =>
    if d = '%' then htmlStepsF g conv args rest ⟨st.out ++ ['%'], st.idx, st.hasStyle⟩
    else if args.length ≤ st.idx then
      htmlStepsF g conv args rest ⟨st.out ++ ['%', d], st.idx, st.hasStyle⟩
    else
      let arg := (args.get? st.idx).getD .vundef
      if d = 'c' then
        htmlStepsF g conv args rest
          ⟨st.out ++ "</span><span style=\x22".toList
              ++ escapeHtml (safeString g arg) ++ "\x22>".toList,
            st.idx + 1, true⟩
      else
        let piece :=
          if d = 's' then conv (safeString g arg)
          else if d = 'd' ∨ d = 'i' then parseIntD (safeString g arg)
          else if d = 'f' then parseFloatD (safeString g arg)
          else if d = 'o' ∨ d = 'O' then conv (circularToString g none arg)
          else if d = 'j' then
            match jsonStringify g false arg with
            | .ok (some r) => conv r
            | _ => conv (safeString g arg)
          else []
        htmlStepsF g conv args rest ⟨st.out ++ piece, st.idx + 1, st.hasStyle⟩

/-- `String.prototype.trim()`. -/
def trimJs (s : Str) : Str :=
  ((s.dropWhile isJsWs).reverse.dropWhile isJsWs).reverse

/-- `[ ... ].join(' ')`. -/
def joinSp (parts : List Str) : Str :=
  List.intercalate [' '] parts

/-- `argsToHtml` from util.mjs, parameterized by the external converter:
converter over the template, specifier replacement, enclosing container when
a style token occurred, collapsing of vacuous containers, trailing arguments,
trim and newline-to-break rewriting. -/
def argsToHtml (g : Heap) (conv : Str → Str) (args : List Val) : Str :=
  match args with
  | [] => []
  | f :: _ =>
    match f with
    | .vstr t =>
      let st := htmlStepsF g conv args (scanTokensWith htmlCls (conv t)) ⟨[], 1, false⟩
      let h1 := if st.hasStyle then "<span>".toList ++ st.out ++ "</span>".toList else st.out
      let h2 := replaceAll h1 ("<span style=\x22\x22>".toList) ("<span>".toList)
      let h3 := replaceAll h2 ("<span></span>".toList) []
      let h4 := h3 ++ ' ' :: joinSp ((args.drop st.idx).map (argToHtml g conv))
      replaceAll (trimJs h4) ['\n'] ("<br/>\n".toList)
    | _ => joinSp (args.map (argToHtml g conv))

/-- Merged configuration of a VirtualConsole instance (the `base_console`
reference is represented by the effect log in the state; the handler is
represented by its presence). -/
structure COptions where
  realConsoleOutput : Bool
  recordOutput : Bool
  hasErrorHandler : Bool
deriving DecidableEq

/-- `arg instanceof Error`. -/
def isError : Val → Bool
  | .verr _ _ _ => true
  | _ => false

/-- The interception test of the method wrapper: error method, configured
handler, exactly one argument, which is an error value. -/
def interceptB (opts : COptions) (m : Str) (args : List Val) : Bool :=
  (m == "error".toList) && opts.hasErrorHandler &&
    (match args with
     | [a] => isError a
     | _ => false)

/-- Observable state of one browser VirtualConsole instance plus the effect
logs of its base console and error handler. -/
structure BState where
  outputs : Str
  outputsHtml : Str
  freshId : Option Str
  baseCalls : List (Str × List Val)
  baseClears : Nat
  handlerCalls : List Val
deriving DecidableEq

/-- Pass-through step: `if (realConsoleOutput) base_console[method](...args)`. -/
def passThru (opts : COptions) (m : Str) (args : List Val) (σ : BState) : BState :=
  if opts.realConsoleOutput then {σ with baseCalls := σ.baseCalls ++ [(m, args)]} else σ

/-- One intercepted method call on the browser VirtualConsole
(browser.mjs lines 131-143).  The second component records whether the call
let an exception escape (a formatting throw aborts the call after the
fresh-line reset and before capture and pass-through). -/
def browserCall (g : Heap) (opts : COptions) (m : Str) (args : List Val) (σ : BState) :
    BState × Bool :=
  if interceptB opts m args then
    ({σ with handlerCalls := σ.handlerCalls ++ [(args.get? 0).getD .vundef]}, false)
  else
    let σ1 := {σ with freshId := none}
    if opts.recordOutput then
      match formatArgsE g args with
      | .error _ => (σ1, true)
      | .ok txt =>
        let σ2 :=
          {σ1 with
            outputs := σ1.outputs ++ txt ++ ['\n'],
            outputsHtml := σ1.outputsHtml ++ argsToHtml g ansi_to_html args ++ "<br/>\n".toList}
        (passThru opts m args σ2, false)
    else (passThru opts m args σ1, false)

/-- `clear()` of the browser VirtualConsole. -/
def browserClear (opts : COptions) (σ : BState) : BState :=
  {σ with
    freshId := none, outputs := [], outputsHtml := [],
    baseClears := σ.baseClears + (if opts.realConsoleOutput then 1 else 0)}

/-- Observable state of one node VirtualConsole instance: its buffers, the
base console's method-call log, and the chunks reaching the base console's
underlying stream through the VirtualStream. -/
structure NState where
  outputs : Str
  outputsHtml : Str
  freshId : Option Str
  baseCalls : List (Str × List Val)
  baseChunks : List Str
  baseClears : Nat
  handlerCalls : List Val
deriving DecidableEq

/-- One intercepted method call on the node VirtualConsole (part_000 lines
231-237): interception, HTML capture when recording, then either the
inherited Console method — whose platform formatter `consoleFmt` writes one
chunk through the VirtualStream (capture and/or forward to the target
stream) — or, when pass-through is on and recording off, a direct base
console invocation with the original arguments. -/
def nodeCall (g : Heap) (opts : COptions) (consoleFmt : Str → List Val → Str)
    (m : Str) (args : List Val) (σ : NState) : NState :=
  if interceptB opts m args then
    {σ with handlerCalls := σ.handlerCalls ++ [(args.get? 0).getD .vundef]}
  else
    let σ1 :=
      if opts.recordOutput then
        {σ with outputsHtml := σ.outputsHtml ++ argsToHtml g ansi_to_html args ++ "<br/>\n".toList}
      else σ
    if !opts.realConsoleOutput || opts.recordOutput then
      let chunk := consoleFmt m args
      let σ2 := {σ1 with freshId := none}
      let σ3 := if opts.recordOutput then {σ2 with outputs := σ2.outputs ++ chunk} else σ2
      if opts.realConsoleOutput then {σ3 with baseChunks := σ3.baseChunks ++ [chunk]} else σ3
    else
      {σ1 with freshId := none, baseCalls := σ1.baseCalls ++ [(m, args)]}

/-- `clear()` of the node VirtualConsole. -/
def nodeClear (opts : COptions) (σ : NState) : NState :=
  {σ with
    freshId := none, outputs := [], outputsHtml := [],
    baseClears := σ.baseClears + (if opts.realConsoleOutput then 1 else 0)}

/-- Router state: the browser module's single mutable cell
`currentAsyncConsole` (instances are identified by numbers), together with an
abstract rest-of-world component that the wrapped function may read and
write. -/
structure RouterState (W : Type) where
  cur : Option Nat
  world : W

/-- `consoleReflect()`: the bound instance, or the process-wide default. -/
def consoleReflect {W : Type} (deflt : Nat) (σ : RouterState W) : Nat :=
  (σ.cur).getD deflt

/-- `consoleReflectSet` (browser): persistent rebinding of the cell. -/
def consoleReflectSet {W : Type} (v : Nat) (σ : RouterState W) : RouterState W :=
  {σ with cur := some v}

/-- `consoleReflectRun` (browser): save the cell, bind `v`, run `fn` to
completion (a completed asynchronous function is one state transformation
returning its settled result), and restore the saved binding in the
`finally` block — whether `fn` returned normally or threw. -/
def consoleReflectRun {W E A : Type} (v : Nat)
    (fn : RouterState W → Except E A × RouterState W) (σ : RouterState W) :
    Except E A × RouterState W :=
  let previousConsole := σ.cur
  let σ1 := {σ with cur := some v}
  let (result, σ2) := fn σ1
  (result, {σ2 with cur := previousConsole})

/-- `hookAsyncContext` on instance `v`: with a function it runs it scoped and
returns its outcome, without one it rebinds persistently. -/
def hookAsyncContext {W E A : Type} (v : Nat)
    (fn : Option (RouterState W → Except E A × RouterState W)) (σ : RouterState W) :
    Option (Except E A) × RouterState W :=
  match fn with
  | some f =>
    let (r, σ2) := consoleReflectRun v f σ
    (some r, σ2)
  | none => (none, consoleReflectSet v σ)

/-- A property table (own and inherited properties of an instance are all
writable data properties; the shared extension record is a plain object). -/
abbrev Props := List (Str × Val)

def propGet (ps : Props) (name : Str) : Option Val :=
  (ps.find? (fun p => p.1 == name)).map (·.2)

def propSet (ps : Props) (name : Str) (v : Val) : Props :=
  ps.map (fun p => if p.1 == name then (p.1, v) else p)

/-- World of the global console facade: the property table of the currently
resolved instance and the shared record
`globalConsoleAdditionalProperties`. -/
structure FacadeState where
  active : Props
  additional : Props
deriving DecidableEq

/-- The FullProxy `set` trap (browser.mjs lines 289-294): re-resolve the
active instance; if the property exists there, `Reflect.set` on it (true on
these writable data properties); otherwise store the pair in the shared
record and report true. -/
def facadeSet (name : Str) (v : Val) (σ : FacadeState) : FacadeState × Bool :=
  if (propGet σ.active name).isSome then
    ({σ with active := propSet σ.active name v}, true)
  else
    ({σ with additional := (name, v) :: σ.additional}, true)

/-- A read through the facade target
`Object.assign(\x7b\x7d, globalConsoleAdditionalProperties, consoleReflect())`:
the instance's properties shadow the shared record. -/
def facadeGet (active additional : Props) (name : Str) : Option Val :=
  match propGet active name with
  | some v => some v
  | none => propGet additional name

/-- `format?.constructor === String`. -/
def isStrVal : Val → Bool
  | .vstr _ => true
  | _ => false

/-- A heap with one prototype-less object (`Object.create(null)`). -/
def protoHeap : Heap := [⟨false, true, []⟩]

/-- An intercepted call that does not match the interception shape leaves the
handler log untouched, whatever else it does. -/
theorem browserCall_handler_of_not_intercept (g : Heap) (opts : COptions) (m : Str)
    (args : List Val) (σ : BState) (h : interceptB opts m args = false) :
    ((browserCall g opts m args σ).1).handlerCalls = σ.handlerCalls := by
  unfold browserCall
  rw [h]
  simp only [Bool.false_eq_true, if_false]
  cases hrec : opts.recordOutput with
  | false => simp [passThru]; split <;> simp
  | true =>
    simp only [if_true]
    cases hfmt : formatArgsE g args with
    | error e => simp
    | ok txt => simp [passThru]; split <;> simp

/-- The node wrapper leaves the interceptor log alone whenever the
interception test fails. -/
theorem nodeCall_handler_of_not_intercept (g : Heap) (opts : COptions)
    (consoleFmt : Str → List Val → Str) (m : Str) (args : List Val) (σ : NState)
    (h : interceptB opts m args = false) :
    (nodeCall g opts consoleFmt m args σ).handlerCalls = σ.handlerCalls := by
  unfold nodeCall
  rw [h]
  simp only [Bool.false_eq_true, if_false]
  cases hrec : opts.recordOutput <;> cases hreal : opts.realConsoleOutput <;>
    simp [hrec, hreal]

/-- C2: run-scoped execution (`consoleReflectRun`, and `hookAsyncContext`
given a function) runs `fn` on the state whose active binding is `v` (which
the router resolves to `v`), restores the prior binding once `fn` has
completed — the result being an ordinary value or a propagated error alike —
and passes that result through unchanged, together with whatever `fn` did to
the rest of the world. -/
theorem claim2_run_scoped_restores_and_propagates {W E A : Type} (v : Nat)
    (fn : RouterState W → Except E A × RouterState W) (σ : RouterState W) :
    consoleReflectRun v fn σ =
      ((fn ⟨some v, σ.world⟩).1, ⟨σ.cur, (fn ⟨some v, σ.world⟩).2.world⟩) ∧
    hookAsyncContext v (some fn) σ =
      (some (fn ⟨some v, σ.world⟩).1, ⟨σ.cur, (fn ⟨some v, σ.world⟩).2.world⟩) ∧
    (∀ deflt : Nat, consoleReflect deflt (⟨some v, σ.world⟩ : RouterState W) = v) := by
  refine ⟨?_, ?_, fun _ => rfl⟩ <;>
    cases hfn : fn ⟨some v, σ.world⟩ with
    | mk r σ2 => simp [consoleReflectRun, hookAsyncContext, hfn]

/-- C4 (code bug): on the argument list `["%s", Object.create(null)]` the
plain-text formatter evaluates the bare `String(arg)` and throws, while the
HTML formatter on the same input returns a string, and `safeString` — which
the HTML path uses exactly to survive prototype-less objects — converts the
same object without throwing. -/
theorem claim4_plain_formatter_throws_on_protoless :
    formatArgsE protoHeap [Val.vstr ("%s".toList), Val.vref 0] = Except.error () ∧
    argsToHtml protoHeap ansi_to_html [Val.vstr ("%s".toList), Val.vref 0] = "\x7b\x7d".toList ∧
    safeString protoHeap (Val.vref 0) = "\x7b\x7d".toList := by
  refine ⟨by decide, by decide, by decide⟩

/-- Rendering of template items when no argument can be consumed: `%%`
collapses to `%`, every other item — literal character or specifier token —
passes through as its literal text. -/
def literalRender : List Item → Str
  | [] => []
  | .chr c :: rest => c :: literalRender rest
  | .tok d :: rest =>
    if d = '%' then '%' :: literalRender rest else '%' :: d :: literalRender rest

/-- Once the argument index has passed the argument count, the plain
formatter copies every remaining item literally (except `%%`) and never
throws. -/
theorem plainStepsF_exhausted (g : Heap) (args : List Val) :
    ∀ (items : List Item) (st : PState), args.length ≤ st.idx →
      plainStepsF g args items st = .ok ⟨st.out ++ literalRender items, st.idx⟩ := by
  intro items
  induction items with
  | nil => intro st _; simp [plainStepsF, literalRender]
  | cons it rest ih =>
    intro st hle
    cases it with
    | chr c =>
      rw [plainStepsF, ih ⟨st.out ++ [c], st.idx⟩ hle]
      simp [literalRender]
    | tok d =>
      by_cases hd : d = '%'
      · subst hd
        rw [plainStepsF]
        rw [if_pos rfl, ih ⟨st.out ++ ['%'], st.idx⟩ hle]
        simp [literalRender]
      · rw [plainStepsF, if_neg hd, if_pos hle, ih ⟨st.out ++ ['%', d], st.idx⟩ hle]
        simp [literalRender, hd]

/-- The HTML formatter behaves the same way once arguments are exhausted,
additionally leaving the style flag untouched. -/
theorem htmlStepsF_exhausted (g : Heap) (conv : Str → Str) (args : List Val) :
    ∀ (items : List Item) (st : HState), args.length ≤ st.idx →
      htmlStepsF g conv args items st = ⟨st.out ++ literalRender items, st.idx, st.hasStyle⟩ := by
  intro items
  induction items with
  | nil => intro st _; simp [htmlStepsF, literalRender]
  | cons it rest ih =>
    intro st hle
    cases it with
    | chr c =>
      rw [htmlStepsF, ih ⟨st.out ++ [c], st.idx, st.hasStyle⟩ hle]
      simp [literalRender]
    | tok d =>
      by_cases hd : d = '%'
      · subst hd
        rw [htmlStepsF]
        rw [if_pos rfl, ih ⟨st.out ++ ['%'], st.idx, st.hasStyle⟩ hle]
        simp [literalRender]
      · rw [htmlStepsF, if_neg hd, if_pos hle, ih ⟨st.out ++ ['%', d], st.idx, st.hasStyle⟩ hle]
        simp [literalRender, hd]

/-- C3: a specifier met with no unconsumed argument left is emitted as its
literal two characters, with no exception and no skipping, in the plain and
the HTML scan alike; a template-only call renders the whole template
literally (`%%` excepted) without throwing; and formatting `"%s %s"` with
the single argument `"only-one"` leaves the second `%s` literal in both
outputs. -/
theorem claim3_undersupplied_specifiers_literal :
    (∀ (g : Heap) (args : List Val) (items : List Item) (st : PState),
      args.length ≤ st.idx →
      plainStepsF g args items st = .ok ⟨st.out ++ literalRender items, st.idx⟩) ∧
    (∀ (g : Heap) (conv : Str → Str) (args : List Val) (items : List Item) (st : HState),
      args.length ≤ st.idx →
      htmlStepsF g conv args items st = ⟨st.out ++ literalRender items, st.idx, st.hasStyle⟩) ∧
    (∀ (g : Heap) (t : Str),
      formatArgsE g [Val.vstr t] = .ok (literalRender (scanTokensWith plainCls t))) ∧
    formatArgsE [] [Val.vstr ("%s %s".toList), Val.vstr ("only-one".toList)] =
      .ok ("only-one %s".toList) ∧
    argsToHtml [] ansi_to_html [Val.vstr ("%s %s".toList), Val.vstr ("only-one".toList)] =
      "only-one %s".toList := by
  refine ⟨plainStepsF_exhausted, htmlStepsF_exhausted, ?_, by decide, by decide⟩
  intro g t
  show (do
      let st ← plainStepsF g [Val.vstr t] (scanTokensWith plainCls t) ⟨[], 1⟩
      plainTrailing g ([Val.vstr t].drop st.idx) st.out) =
    .ok (literalRender (scanTokensWith plainCls t))
  rw [plainStepsF_exhausted g [Val.vstr t] (scanTokensWith plainCls t) ⟨[], 1⟩ (by simp)]
  simp [Bind.bind, Except.bind, plainTrailing]

/-- Concrete application of the under-supply theorem: scanning `"%s%d"`
with no arguments leaves both specifiers literal, in both formatters. -/
theorem claim3_witness :
    plainStepsF [] [] [Item.tok 's', Item.chr ' ', Item.tok 'd'] ⟨[], 0⟩ =
      .ok ⟨"%s %d".toList, 0⟩ ∧
    htmlStepsF [] ansi_to_html [] [Item.tok 's', Item.chr ' ', Item.tok 'd'] ⟨[], 0, false⟩ =
      ⟨"%s %d".toList, 0, false⟩ ∧
    formatArgsE [] [Val.vstr ("%s%d".toList)] = .ok ("%s%d".toList) :=
  ⟨claim3_undersupplied_specifiers_literal.1 [] [] _ _ (by decide),
   claim3_undersupplied_specifiers_literal.2.1 [] ansi_to_html [] _ _ (by decide),
   claim3_undersupplied_specifiers_literal.2.2.1 [] ("%s%d".toList)⟩

/-- The empty browser instance state. -/
def σB0 : BState := ⟨[], [], none, [], 0, []⟩

/-- The empty node instance state. -/
def σN0 : NState := ⟨[], [], none, [], [], 0, []⟩

/-- C6: with a configured interceptor, calling the error method with exactly
one error-type argument — on the browser instance or on the node instance,
whatever the platform formatter — hands that value to the interceptor and
returns at once: buffers, fresh-line id and base console untouched, nothing
thrown; and no call of another method, of another argument count, or with a
single non-error argument ever reaches the interceptor on either
implementation. -/
theorem claim6_error_interceptor_bypass
    (g : Heap) (opts : COptions) (m : Str) (args : List Val) (σ : BState) (a : Val)
    (hh : opts.hasErrorHandler = true) (hm : m = "error".toList)
    (ha : args = [a]) (he : isError a = true) :
    browserCall g opts m args σ = ({σ with handlerCalls := σ.handlerCalls ++ [a]}, false) ∧
    (∀ (m2 : Str) (args2 : List Val) (σ2 : BState), m2 ≠ "error".toList →
      ((browserCall g opts m2 args2 σ2).1).handlerCalls = σ2.handlerCalls) ∧
    (∀ (m2 : Str) (args2 : List Val) (σ2 : BState), args2.length ≠ 1 →
      ((browserCall g opts m2 args2 σ2).1).handlerCalls = σ2.handlerCalls) ∧
    (∀ (m2 : Str) (a2 : Val) (σ2 : BState), isError a2 = false →
      ((browserCall g opts m2 [a2] σ2).1).handlerCalls = σ2.handlerCalls) ∧
    (∀ (fmt : Str → List Val → Str) (σn : NState),
      nodeCall g opts fmt m args σn =
        {σn with handlerCalls := σn.handlerCalls ++ [a]}) ∧
    (∀ (fmt : Str → List Val → Str) (m2 : Str) (args2 : List Val) (σn : NState),
      m2 ≠ "error".toList →
      (nodeCall g opts fmt m2 args2 σn).handlerCalls = σn.handlerCalls) ∧
    (∀ (fmt : Str → List Val → Str) (m2 : Str) (args2 : List Val) (σn : NState),
      args2.length ≠ 1 →
      (nodeCall g opts fmt m2 args2 σn).handlerCalls = σn.handlerCalls) ∧
    (∀ (fmt : Str → List Val → Str) (m2 : Str) (a2 : Val) (σn : NState),
      isError a2 = false →
      (nodeCall g opts fmt m2 [a2] σn).handlerCalls = σn.handlerCalls) := by
  subst hm ha
  have hi : interceptB opts ("error".toList) [a] = true := by
    simp [interceptB, hh, he]
  refine ⟨?_, ?_, ?_, ?_, ?_, ?_, ?_, ?_⟩
  · rw [browserCall, hi]
    simp
  · intro m2 args2 σ2 hne
    refine browserCall_handler_of_not_intercept g opts m2 args2 σ2 ?_
    simp [interceptB]
    intro hbeq
    exact absurd hbeq hne
  · intro m2 args2 σ2 hlen
    refine browserCall_handler_of_not_intercept g opts m2 args2 σ2 ?_
    unfold interceptB
    cases args2 with
    | nil => simp
    | cons b t =>
      cases t with
      | nil => simp at hlen
      | cons b2 t2 => simp
  · intro m2 a2 σ2 hne
    refine browserCall_handler_of_not_intercept g opts m2 [a2] σ2 ?_
    simp [interceptB, hne]
  · intro fmt σn
    rw [nodeCall, hi]
    simp
  · intro fmt m2 args2 σn hne
    refine nodeCall_handler_of_not_intercept g opts fmt m2 args2 σn ?_
    simp [interceptB]
    intro hbeq
    exact absurd hbeq hne
  · intro fmt m2 args2 σn hlen
    refine nodeCall_handler_of_not_intercept g opts fmt m2 args2 σn ?_
    unfold interceptB
    cases args2 with
    | nil => simp
    | cons b t =>
      cases t with
      | nil => simp at hlen
      | cons b2 t2 => simp
  · intro fmt m2 a2 σn hne
    refine nodeCall_handler_of_not_intercept g opts fmt m2 [a2] σn ?_
    simp [interceptB, hne]

/-- Concrete application of the interception theorem: on both the browser and
the node instance the bypass fires and updates only the handler log, and a
`log` call is not intercepted. -/
theorem claim6_witness :
    browserCall [] ⟨true, true, true⟩ ("error".toList)
        [Val.verr ("Error".toList) ("boom".toList) none] σB0 =
      ({σB0 with handlerCalls := [Val.verr ("Error".toList) ("boom".toList) none]}, false) ∧
    ((browserCall [] ⟨true, true, true⟩ ("log".toList)
        [Val.verr ("Error".toList) ("boom".toList) none] σB0).1).handlerCalls = [] ∧
    nodeCall [] ⟨true, true, true⟩ (fun _ _ => []) ("error".toList)
        [Val.verr ("Error".toList) ("boom".toList) none] σN0 =
      {σN0 with handlerCalls := [Val.verr ("Error".toList) ("boom".toList) none]} ∧
    (nodeCall [] ⟨true, true, true⟩ (fun _ _ => []) ("log".toList)
        [Val.verr ("Error".toList) ("boom".toList) none] σN0).handlerCalls = [] :=
  ⟨(claim6_error_interceptor_bypass [] ⟨true, true, true⟩ ("error".toList)
      [Val.verr ("Error".toList) ("boom".toList) none] σB0
      (Val.verr ("Error".toList) ("boom".toList) none) rfl rfl rfl rfl).1,
   (claim6_error_interceptor_bypass [] ⟨true, true, true⟩ ("error".toList)
      [Val.verr ("Error".toList) ("boom".toList) none] σB0
      (Val.verr ("Error".toList) ("boom".toList) none) rfl rfl rfl rfl).2.1
      ("log".toList) [Val.verr ("Error".toList) ("boom".toList) none] σB0 (by decide),
   (claim6_error_interceptor_bypass [] ⟨true, true, true⟩ ("error".toList)
      [Val.verr ("Error".toList) ("boom".toList) none] σB0
      (Val.verr ("Error".toList) ("boom".toList) none) rfl rfl rfl rfl).2.2.2.2.1
      (fun _ _ => []) σN0,
   (claim6_error_interceptor_bypass [] ⟨true, true, true⟩ ("error".toList)
      [Val.verr ("Error".toList) ("boom".toList) none] σB0
      (Val.verr ("Error".toList) ("boom".toList) none) rfl rfl rfl rfl).2.2.2.2.2.1
      (fun _ _ => []) ("log".toList)
      [Val.verr ("Error".toList) ("boom".toList) none] σN0 (by decide)⟩

/-- C9: `clear()` empties both buffers, resets the overwritable-line id,
emits the base console's own clear exactly when pass-through is enabled, and
a second `clear()` reproduces exactly the same instance state (emitting the
base clear again under pass-through) — in the browser and the node
implementation alike. -/
theorem claim9_clear_resets_and_idempotent (opts : COptions) (σ : BState) (σn : NState) :
    (browserClear opts σ).outputs = [] ∧ (browserClear opts σ).outputsHtml = [] ∧
    (browserClear opts σ).freshId = none ∧
    (browserClear opts σ).baseClears =
      σ.baseClears + (if opts.realConsoleOutput then 1 else 0) ∧
    browserClear opts (browserClear opts σ) =
      {browserClear opts σ with
        baseClears := (browserClear opts σ).baseClears
          + (if opts.realConsoleOutput then 1 else 0)} ∧
    (nodeClear opts σn).outputs = [] ∧ (nodeClear opts σn).outputsHtml = [] ∧
    (nodeClear opts σn).freshId = none ∧
    (nodeClear opts σn).baseClears =
      σn.baseClears + (if opts.realConsoleOutput then 1 else 0) ∧
    nodeClear opts (nodeClear opts σn) =
      {nodeClear opts σn with
        baseClears := (nodeClear opts σn).baseClears
          + (if opts.realConsoleOutput then 1 else 0)} := by
  refine ⟨rfl, rfl, rfl, rfl, rfl, rfl, rfl, rfl, rfl, rfl⟩

/-- C10: the facade `set` trap assigns on the active instance exactly when a
property of that name exists there (leaving the shared record alone), stores
the pair in the shared extension record otherwise — after which the facade
read of that name yields the stored value under any active instance lacking
the name — and reports success in both cases. -/
theorem claim10_facade_set_dichotomy (name : Str) (v : Val) (σ : FacadeState) :
    (facadeSet name v σ).2 = true ∧
    ((propGet σ.active name).isSome = true →
      (facadeSet name v σ).1.active = propSet σ.active name v ∧
      (facadeSet name v σ).1.additional = σ.additional) ∧
    (propGet σ.active name = none →
      (facadeSet name v σ).1.active = σ.active ∧
      ∀ other : Props, propGet other name = none →
        facadeGet other (facadeSet name v σ).1.additional name = some v) := by
  refine ⟨?_, ?_, ?_⟩
  · unfold facadeSet; split <;> rfl
  · intro h
    rw [facadeSet, if_pos h]
    exact ⟨rfl, rfl⟩
  · intro h
    have hns : ¬((propGet σ.active name).isSome = true) := by simp [h]
    rw [facadeSet, if_neg hns]
    refine ⟨rfl, ?_⟩
    intro other ho
    unfold facadeGet
    rw [ho]
    simp [propGet, List.find?]

/-- Concrete application of the facade theorem: storing a fresh name goes to
the shared record and is readable with another shapeless instance active. -/
theorem claim10_witness :
    facadeGet [("log".toList, Val.vnull)]
      ((facadeSet ("customFlag".toList) (Val.vbool true)
        ⟨[("outputs".toList, Val.vstr [])], []⟩).1.additional)
      ("customFlag".toList) = some (Val.vbool true) ∧
    (facadeSet ("customFlag".toList) (Val.vbool true)
      ⟨[("outputs".toList, Val.vstr [])], []⟩).2 = true :=
  ⟨((claim10_facade_set_dichotomy ("customFlag".toList) (Val.vbool true)
      ⟨[("outputs".toList, Val.vstr [])], []⟩).2.2 (by decide)).2
      [("log".toList, Val.vnull)] (by decide),
   (claim10_facade_set_dichotomy ("customFlag".toList) (Val.vbool true)
      ⟨[("outputs".toList, Val.vstr [])], []⟩).1⟩

/-- A stand-in for the platform Console formatter of the node base class
(util.format), used to observe what the VirtualStream forwards. -/
def fmt0 : Str → List Val → Str := fun _ _ => "CHUNK\n".toList

/-- C5 counterexample: on the node implementation with pass-through and
record both enabled, a plain log call never invokes the base console's
method — the base sink instead receives the already-formatted chunk through
its underlying stream. -/
theorem claim5_counterexample_node_passthrough_formatted :
    (nodeCall [] ⟨true, true, false⟩ fmt0 ("log".toList) [Val.vstr ("x".toList)] σN0).baseCalls
      = [] ∧
    (nodeCall [] ⟨true, true, false⟩ fmt0 ("log".toList) [Val.vstr ("x".toList)] σN0).baseChunks
      = ["CHUNK\n".toList] := by
  refine ⟨by decide, by decide⟩

/-- C5 as amended: pass-through hands the base sink the original, unmodified
argument list in the browser implementation whenever the call is not
intercepted and does not abort on a formatting throw; in the node
implementation it does so exactly when record-output is disabled, and with
record-output enabled the base sink's method is not called — its stream
receives one formatted chunk instead. -/
theorem claim5_amended_passthrough_original_args
    (g : Heap) (opts : COptions) (m : Str) (args : List Val) (σ : BState)
    (σn : NState) (consoleFmt : Str → List Val → Str)
    (hni : interceptB opts m args = false)
    (hreal : opts.realConsoleOutput = true) :
    ((opts.recordOutput = true → (formatArgsE g args).isOk = true) →
      ((browserCall g opts m args σ).1).baseCalls = σ.baseCalls ++ [(m, args)]) ∧
    (opts.recordOutput = false →
      (nodeCall g opts consoleFmt m args σn).baseCalls = σn.baseCalls ++ [(m, args)]) ∧
    (opts.recordOutput = true →
      (nodeCall g opts consoleFmt m args σn).baseCalls = σn.baseCalls ∧
      (nodeCall g opts consoleFmt m args σn).baseChunks
        = σn.baseChunks ++ [consoleFmt m args]) := by
  refine ⟨?_, ?_, ?_⟩
  · intro hok
    rw [browserCall, hni]
    simp only [Bool.false_eq_true, if_false]
    cases hrec : opts.recordOutput with
    | false => simp [passThru, hreal]
    | true =>
      simp only [if_true]
      cases hfmt : formatArgsE g args with
      | error e =>
        exact absurd (hok hrec) (by simp [hfmt, Except.isOk, Except.toBool])
      | ok txt => simp [passThru, hreal]
  · intro hrec
    rw [nodeCall, hni]
    simp [hrec, hreal]
  · intro hrec
    rw [nodeCall, hni]
    simp [hrec, hreal]

/-- Concrete application of the amended pass-through theorem in all three
shapes. -/
theorem claim5_witness :
    ((browserCall [] ⟨true, true, false⟩ ("log".toList) [Val.vstr ("x".toList)] σB0).1).baseCalls
      = [(("log".toList), [Val.vstr ("x".toList)])] ∧
    (nodeCall [] ⟨true, false, false⟩ fmt0 ("log".toList) [Val.vstr ("x".toList)] σN0).baseCalls
      = [(("log".toList), [Val.vstr ("x".toList)])] :=
  ⟨(claim5_amended_passthrough_original_args [] ⟨true, true, false⟩ ("log".toList)
      [Val.vstr ("x".toList)] σB0 σN0 fmt0 (by decide) rfl).1 (fun _ => by decide),
   (claim5_amended_passthrough_original_args [] ⟨true, false, false⟩ ("log".toList)
      [Val.vstr ("x".toList)] σB0 σN0 fmt0 (by decide) rfl).2.1 rfl⟩

/-- The rendering that claim C8 describes: every argument independently
through the structural stringifier (a stack-bearing error rendering as its
stack), joined by single spaces. -/
def specStringifierJoin (g : Heap) (args : List Val) : Str :=
  joinSp (args.map (fun a =>
    match errStack a with
    | some st => st
    | none => circularToString g none a))

/-- C8 counterexample: on the single non-string argument `1`, the plain
formatter emits `1` (JSON serialization), not the structural stringifier's
color-decorated rendering the claim prescribes. -/
theorem claim8_counterexample_plain_not_structural :
    formatArgsE [] [Val.vnum ("1".toList)] = .ok ("1".toList) ∧
    specStringifierJoin [] [Val.vnum ("1".toList)] = colYellow ++ '1' :: colReset ∧
    formatArgsE [] [Val.vnum ("1".toList)]
      ≠ .ok (specStringifierJoin [] [Val.vnum ("1".toList)]) := by
  refine ⟨by decide, by decide, by decide⟩

/-- C8 as amended: with a non-string first argument, each argument is
rendered independently and the renderings are joined by single spaces, a
stack-bearing error rendering as its stack; the per-argument rendering is
`plainFirstRender` (string pass-through, then JSON serialization with
`String` fallback) in plain mode and `argToHtml` (JSON serialization for
objects with structural-stringifier fallback, structural stringifier
otherwise) in HTML mode. -/
theorem claim8_amended_independent_join (g : Heap) (conv : Str → Str)
    (f : Val) (rest : List Val) (hns : isStrVal f = false) :
    formatArgsE g (f :: rest) =
      (do
        let parts ← (f :: rest).mapM (plainFirstRender g)
        .ok (joinSpOpt parts)) ∧
    argsToHtml g conv (f :: rest) = joinSp ((f :: rest).map (argToHtml g conv)) := by
  cases f with
  | vstr s => simp [isStrVal] at hns
  | vnum r => exact ⟨rfl, rfl⟩
  | vbool b => exact ⟨rfl, rfl⟩
  | vnull => exact ⟨rfl, rfl⟩
  | vundef => exact ⟨rfl, rfl⟩
  | vsym d => exact ⟨rfl, rfl⟩
  | vfunc n s => exact ⟨rfl, rfl⟩
  | verr n m st => exact ⟨rfl, rfl⟩
  | vdate iso => exact ⟨rfl, rfl⟩
  | vregex r => exact ⟨rfl, rfl⟩
  | vref id => exact ⟨rfl, rfl⟩

/-- Concrete application of the amended independent-join theorem: two
non-template arguments, an error with a stack among them. -/
theorem claim8_witness :
    formatArgsE [] [Val.vnum ("1".toList), Val.verr ("Error".toList) ("b".toList)
        (some ("TRACE".toList))] = .ok ("1 TRACE".toList) ∧
    argsToHtml [] ansi_to_html [Val.vnum ("1".toList), Val.verr ("Error".toList) ("b".toList)
        (some ("TRACE".toList))]
      = joinSp ([Val.vnum ("1".toList), Val.verr ("Error".toList) ("b".toList)
          (some ("TRACE".toList))].map (argToHtml [] ansi_to_html)) :=
  ⟨by
    rw [(claim8_amended_independent_join [] ansi_to_html (Val.vnum ("1".toList))
      [Val.verr ("Error".toList) ("b".toList) (some ("TRACE".toList))] (by decide)).1]
    decide,
   (claim8_amended_independent_join [] ansi_to_html (Val.vnum ("1".toList))
      [Val.verr ("Error".toList) ("b".toList) (some ("TRACE".toList))] (by decide)).2⟩

theorem lookupId_cons (a c : Nat) (ids : Ids) (n : Nat) :
    lookupId ((a, c) :: ids) n = if a = n then some c else lookupId ids n := by
  by_cases h : a = n
  · simp [lookupId, List.find?, h]
  · simp only [lookupId, List.find?]
    have : ((a, c).1 == n) = false := by simpa using h
    rw [this]
    simp [lookupId, h]

/-- Extension order on reference-id maps. -/
def IdsLe (a b : Ids) : Prop :=
  ∀ n r, lookupId a n = some r → lookupId b n = some r

theorem IdsLe.rfl {a : Ids} : IdsLe a a := fun _ _ h => h

theorem IdsLe.comp {a b c : Ids} (h1 : IdsLe a b) (h2 : IdsLe b c) : IdsLe a c :=
  fun n r h => h2 n r (h1 n r h)

/-- A list of distinct numbers below `N` has length at most `N`. -/
theorem nodup_lt_length_le {l : List Nat} {N : Nat} (hnd : l.Nodup)
    (hlt : ∀ x ∈ l, x < N) : l.length ≤ N := by
  have hsub : l.toFinset ⊆ Finset.range N := by
    intro x hx
    exact Finset.mem_range.mpr (hlt x (List.mem_toFinset.mp hx))
  have hcard := Finset.card_le_card hsub
  rwa [List.toFinset_card_of_nodup hnd, Finset.card_range] at hcard

/-- A position below the heap length holds a node. -/
theorem heap_get_of_lt {g : Heap} {id : Nat} (h : id < g.length) :
    ∃ nd, g.get? id = some nd := by
  cases hg : g.get? id with
  | none => exact absurd (List.get?_eq_none.mp hg) (by omega)
  | some nd => exact ⟨nd, rfl⟩

/-- Totality of a scan fold, given totality of the step on each element. -/
theorem scanFold_total (g : Heap) (f : Nat) (stack2 : List Nat)
    (ih : ∀ (v : Val) (st : Ids × Nat), ValWf g v →
      (scanF g f v stack2 st).isSome = true) :
    ∀ (fields : List (Key × Val)) (st : Ids × Nat), (∀ kv ∈ fields, ValWf g kv.2) →
      (List.foldlM (fun acc kv => scanF g f kv.2 stack2 acc) st fields).isSome = true := by
  intro fields
  induction fields with
  | nil => intro st _; simp
  | cons kv rest ihl =>
    intro st hall
    rw [List.foldlM_cons]
    have h1 := ih kv.2 st (hall kv (List.mem_cons_self _ _))
    cases hsc : scanF g f kv.2 stack2 st with
    | none => rw [hsc] at h1; simp at h1
    | some st1 =>
      have := ihl st1 (fun kv2 hkv2 => hall kv2 (List.mem_cons_of_mem _ hkv2))
      simpa [hsc] using this

/-- The `scan` pass completes whenever the fuel plus the stack size exceeds
the heap size: each descent pushes a fresh node id onto the stack, and
distinct ids below the heap size are at most the heap size many. -/
theorem scanF_total (g : Heap) (hwf : HeapWf g) :
    ∀ (f : Nat) (v : Val) (stack : List Nat) (st : Ids × Nat),
      ValWf g v → stack.Nodup → (∀ x ∈ stack, x < g.length) →
      g.length + 1 ≤ f + stack.length →
      (scanF g f v stack st).isSome = true := by
  intro f
  induction f with
  | zero =>
    intro v stack st hv hnd hlt hbound
    cases v with
    | vref id =>
      rw [scanF]
      by_cases hmem : id ∈ stack
      · rw [if_pos hmem]; rfl
      · exfalso
        have := nodup_lt_length_le hnd hlt
        omega
    | vstr s => simp [scanF]
    | vnum r => simp [scanF]
    | vbool b => simp [scanF]
    | vnull => simp [scanF]
    | vundef => simp [scanF]
    | vsym d => simp [scanF]
    | vfunc n s => simp [scanF]
    | verr n m st2 => simp [scanF]
    | vdate iso => simp [scanF]
    | vregex r => simp [scanF]
  | succ f ih =>
    intro v stack st hv hnd hlt hbound
    cases v with
    | vref id =>
      rw [scanF]
      by_cases hmem : id ∈ stack
      · rw [if_pos hmem]; rfl
      · rw [if_neg hmem]
        have hid : id < g.length := hv
        obtain ⟨nd, hnd2⟩ := heap_get_of_lt hid
        rw [hnd2]
        have hfields : ∀ kv ∈ nd.fields, ValWf g kv.2 :=
          hwf nd (List.get?_mem hnd2)
        have hstack1 : (id :: stack).Nodup := List.nodup_cons.mpr ⟨hmem, hnd⟩
        have hlt1 : ∀ x ∈ id :: stack, x < g.length := by
          intro x hx
          rcases List.mem_cons.mp hx with rfl | hx2
          · exact hid
          · exact hlt x hx2
        have hbound1 : g.length + 1 ≤ f + (id :: stack).length := by
          simp only [List.length_cons]
          omega
        exact scanFold_total g f (id :: stack)
          (fun v2 st2 hv2 => ih v2 (id :: stack) st2 hv2 hstack1 hlt1 hbound1)
          nd.fields st hfields
    | vstr s => simp [scanF]
    | vnum r => simp [scanF]
    | vbool b => simp [scanF]
    | vnull => simp [scanF]
    | vundef => simp [scanF]
    | vsym d => simp [scanF]
    | vfunc n s => simp [scanF]
    | verr n m st2 => simp [scanF]
    | vdate iso => simp [scanF]
    | vregex r => simp [scanF]

/-- Monotonicity of a scan fold, given monotonicity of the step. -/
theorem scanFold_mono (g : Heap) (f : Nat) (stack2 : List Nat)
    (ih : ∀ (v : Val) (st st' : Ids × Nat),
      scanF g f v stack2 st = some st' → IdsLe st.1 st'.1) :
    ∀ (fields : List (Key × Val)) (st st' : Ids × Nat),
      List.foldlM (fun acc kv => scanF g f kv.2 stack2 acc) st fields = some st' →
      IdsLe st.1 st'.1 := by
  intro fields
  induction fields with
  | nil => intro st st' h; simp at h; subst h; exact IdsLe.rfl
  | cons kv rest ihl =>
    intro st st' h
    rw [List.foldlM_cons] at h
    cases hsc : scanF g f kv.2 stack2 st with
    | none => rw [hsc] at h; simp at h
    | some st1 =>
      rw [hsc] at h
      simp only [Option.bind_eq_bind, Option.some_bind] at h
      exact (ih kv.2 st st1 hsc).comp (ihl st1 st' h)

/-- The id-map step performed when the scan meets a stacked reference only
extends the map. -/
theorem idsLe_scanStep (st : Ids × Nat) (id : Nat) :
    IdsLe st.1 (if lookupId st.1 id = none then ((id, st.2) :: st.1, st.2 + 1) else st).1 := by
  by_cases hl0 : lookupId st.1 id = none
  · rw [if_pos hl0]
    intro n r hl
    show lookupId ((id, st.2) :: st.1) n = some r
    rw [lookupId_cons]
    by_cases hid : id = n
    · subst hid
      rw [hl0] at hl
      exact Option.noConfusion hl
    · rw [if_neg hid]
      exact hl
  · rw [if_neg hl0]
    exact IdsLe.rfl

/-- The scan pass only extends the reference-id map. -/
theorem scanF_mono (g : Heap) :
    ∀ (f : Nat) (v : Val) (stack : List Nat) (st st' : Ids × Nat),
      scanF g f v stack st = some st' → IdsLe st.1 st'.1 := by
  intro f
  induction f with
  | zero =>
    intro v stack st st' h
    cases v
    case vref id =>
      rw [scanF] at h
      by_cases hmem : id ∈ stack
      · rw [if_pos hmem] at h
        injection h with h
        subst h
        exact idsLe_scanStep st id
      · rw [if_neg hmem] at h
        exact Option.noConfusion h
    all_goals
      (change some st = some st' at h; injection h with h; subst h; exact IdsLe.rfl)
  | succ f ih =>
    intro v stack st st' h
    cases v
    case vref id =>
      rw [scanF] at h
      by_cases hmem : id ∈ stack
      · rw [if_pos hmem] at h
        injection h with h
        subst h
        exact idsLe_scanStep st id
      · rw [if_neg hmem] at h
        cases hg : g.get? id with
        | none =>
          rw [hg] at h
          injection h with h
          subst h
          exact IdsLe.rfl
        | some nd =>
          rw [hg] at h
          exact scanFold_mono g f (id :: stack)
            (fun v2 st2 st2' h2 => ih v2 (id :: stack) st2 st2' h2) nd.fields st st' h
    all_goals
      (change some st = some st' at h; injection h with h; subst h; exact IdsLe.rfl)

/-- Scanning a reference already on the stack leaves it with an id. -/
theorem scanF_assigns (g : Heap) (f : Nat) (id : Nat) (stack : List Nat)
    (st st' : Ids × Nat) (hmem : id ∈ stack)
    (h : scanF g f (.vref id) stack st = some st') :
    lookupId st'.1 id ≠ none := by
  have hstep : ∀ st0 : Ids × Nat,
      lookupId (if lookupId st0.1 id = none
        then ((id, st0.2) :: st0.1, st0.2 + 1) else st0).1 id ≠ none := by
    intro st0
    by_cases hl0 : lookupId st0.1 id = none
    · rw [if_pos hl0]
      show lookupId ((id, st0.2) :: st0.1) id ≠ none
      rw [lookupId_cons, if_pos rfl]
      simp
    · rw [if_neg hl0]
      exact hl0
  cases f with
  | zero =>
    rw [scanF, if_pos hmem] at h
    injection h with h
    subst h
    exact hstep st
  | succ f =>
    rw [scanF, if_pos hmem] at h
    injection h with h
    subst h
    exact hstep st

/-- Every id the scan records belongs to a node with at least one field. -/
def IdsNonLeaf (g : Heap) (ids : Ids) : Prop :=
  ∀ n r, lookupId ids n = some r → ∃ nd, g.get? n = some nd ∧ nd.fields ≠ []

/-- The id-map step preserves the non-leaf property when the met node has
fields. -/
theorem idsNonLeaf_scanStep (g : Heap) (st : Ids × Nat) (id : Nat)
    (hid : ∃ nd, g.get? id = some nd ∧ nd.fields ≠ [])
    (hinv : IdsNonLeaf g st.1) :
    IdsNonLeaf g (if lookupId st.1 id = none
      then ((id, st.2) :: st.1, st.2 + 1) else st).1 := by
  by_cases hl0 : lookupId st.1 id = none
  · rw [if_pos hl0]
    intro n r hl
    rw [show ((id, st.2) :: st.1, st.2 + 1).1 = (id, st.2) :: st.1 from rfl,
      lookupId_cons] at hl
    by_cases hidn : id = n
    · subst hidn
      exact hid
    · rw [if_neg hidn] at hl
      exact hinv n r hl
  · rw [if_neg hl0]
    exact hinv

theorem scanFold_ids_inv (g : Heap) (f : Nat) (stack2 : List Nat)
    (ih : ∀ (v : Val) (st st' : Ids × Nat), IdsNonLeaf g st.1 →
      scanF g f v stack2 st = some st' → IdsNonLeaf g st'.1) :
    ∀ (fields : List (Key × Val)) (st st' : Ids × Nat), IdsNonLeaf g st.1 →
      List.foldlM (fun acc kv => scanF g f kv.2 stack2 acc) st fields = some st' →
      IdsNonLeaf g st'.1 := by
  intro fields
  induction fields with
  | nil => intro st st' hinv h; simp at h; subst h; exact hinv
  | cons kv rest ihl =>
    intro st st' hinv h
    rw [List.foldlM_cons] at h
    cases hsc : scanF g f kv.2 stack2 st with
    | none => rw [hsc] at h; simp at h
    | some st1 =>
      rw [hsc] at h
      simp only [Option.bind_eq_bind, Option.some_bind] at h
      exact ihl st1 st' (ih kv.2 st st1 hinv hsc) h

/-- The scan pass assigns ids only to nodes that have fields: a keyless
object has no outgoing edge, so it can never be met on the active path a
second time. -/
theorem scanF_ids_inv (g : Heap) :
    ∀ (f : Nat) (v : Val) (stack : List Nat) (st st' : Ids × Nat),
      (∀ u ∈ stack, ∃ nd, g.get? u = some nd ∧ nd.fields ≠ []) →
      IdsNonLeaf g st.1 →
      scanF g f v stack st = some st' → IdsNonLeaf g st'.1 := by
  intro f
  induction f with
  | zero =>
    intro v stack st st' hstack hinv h
    cases v
    case vref id =>
      rw [scanF] at h
      by_cases hmem : id ∈ stack
      · rw [if_pos hmem] at h
        injection h with h
        subst h
        exact idsNonLeaf_scanStep g st id (hstack id hmem) hinv
      · rw [if_neg hmem] at h
        exact Option.noConfusion h
    all_goals
      (change some st = some st' at h; injection h with h; subst h; exact hinv)
  | succ f ih =>
    intro v stack st st' hstack hinv h
    cases v
    case vref id =>
      rw [scanF] at h
      by_cases hmem : id ∈ stack
      · rw [if_pos hmem] at h
        injection h with h
        subst h
        exact idsNonLeaf_scanStep g st id (hstack id hmem) hinv
      · rw [if_neg hmem] at h
        cases hg : g.get? id with
        | none =>
          rw [hg] at h
          injection h with h
          subst h
          exact hinv
        | some nd =>
          rw [hg] at h
          change List.foldlM (fun acc kv => scanF g f kv.2 (id :: stack) acc) st nd.fields
            = some st' at h
          cases hfe : nd.fields with
          | nil =>
            rw [hfe] at h
            simp at h
            subst h
            exact hinv
          | cons kv0 rest0 =>
            have hstack1 : ∀ u ∈ id :: stack,
                ∃ nd2, g.get? u = some nd2 ∧ nd2.fields ≠ [] := by
              intro u hu
              rcases List.mem_cons.mp hu with rfl | hu2
              · exact ⟨nd, hg, by rw [hfe]; simp⟩
              · exact hstack u hu2
            exact scanFold_ids_inv g f (id :: stack)
              (fun v2 st2 st2' hi2 h2 => ih v2 (id :: stack) st2 st2' hstack1 hi2 h2)
              nd.fields st st' hinv h
    all_goals
      (change some st = some st' at h; injection h with h; subst h; exact hinv)

/-- A seen-set entry that is a recorded leak: a keyless node without a
reference id. -/
def LeafNoId (g : Heap) (idsF : Ids) (u : Nat) : Prop :=
  (∃ nd, g.get? u = some nd ∧ nd.fields = []) ∧ lookupId idsF u = none

/-- The simulation relation between the scan stack and the format seen set:
the seen set consists of the active path plus leaked keyless nodes, which
can never carry a reference id. -/
def SimRel (g : Heap) (idsF : Ids) (stack seen : List Nat) : Prop :=
  seen.Nodup ∧ (∀ u ∈ stack, u ∈ seen) ∧ (∀ u ∈ seen, u ∈ stack ∨ LeafNoId g idsF u)

/-- The back-reference branch of the format pass. -/
theorem formatF_marker (g : Heap) (ids : Ids) (f : Nat) (id d : Nat) (seen : List Nat)
    (hseen : id ∈ seen) (hne : lookupId ids id ≠ none) :
    formatF g ids none f (.vref id) d seen =
      some (colCyan ++ "[Circular *".toList ++ natStr ((lookupId ids id).getD 0)
        ++ [']'] ++ colReset, seen) := by
  cases f with
  | zero =>
    show formatStep g ids none none (.vref id) d seen = _
    rw [formatStep, if_pos ⟨hseen, hne⟩]
  | succ f =>
    show formatStep g ids none (some (formatF g ids none f)) (.vref id) d seen = _
    rw [formatStep, if_pos ⟨hseen, hne⟩]

/-- The format pass on non-reference values returns at once. -/
theorem formatF_prim (g : Heap) (ids : Ids) (depth : Option Nat) (f : Nat) (d : Nat)
    (seen : List Nat) (v : Val) (hv : ∀ id : Nat, v ≠ .vref id) :
    formatF g ids depth f v d seen = some (fmtPrim v, seen) := by
  cases f <;> cases v <;> first
    | exact absurd rfl (hv _)
    | rfl

theorem seenIns_mem {id : Nat} {seen : List Nat} (h : id ∈ seen) :
    seenIns id seen = seen := by
  rw [seenIns, if_pos h]

theorem seenIns_not_mem {id : Nat} {seen : List Nat} (h : id ∉ seen) :
    seenIns id seen = id :: seen := by
  rw [seenIns, if_neg h]

/-- The node-rendering branch of one format layer. -/
theorem formatStep_node (g : Heap) (ids : Ids) (depth : Option Nat)
    (rec : Val → Nat → List Nat → Option (Str × List Nat))
    (id d : Nat) (seen : List Nat) (nd : Node)
    (hcond : ¬(id ∈ seen ∧ lookupId ids id ≠ none))
    (hdep : depthHit depth d = false)
    (hg : g.get? id = some nd) :
    formatStep g ids depth (some rec) (.vref id) d seen =
      (if nd.fields = [] then
        some (refPfx ids id ++ [opCh nd.isArray, clCh nd.isArray], seenIns id seen)
      else do
        let (lines, seen2) ← nd.fields.foldlM
          (fun acc kv => do
            let (s, seen3) ← rec kv.2 (d + 1) acc.2
            some (acc.1 ++ [tabs (d + 1) ++ keyStr nd.isArray kv.1 ++ s], seen3))
          (([] : List Str), seenIns id seen)
        some (refPfx ids id ++ opCh nd.isArray :: '\n'
            :: List.intercalate (",\n".toList) lines
            ++ '\n' :: tabs d ++ [clCh nd.isArray], seen2.erase id)) := by
  rw [formatStep, if_neg hcond, if_neg (by simp [hdep]), hg]

/-- Simulation for the field fold: if the scan fold completed and the states
are related, the format fold completes and preserves the relation. -/
theorem simFold (g : Heap) (idsF : Ids) (f : Nat) (stack2 : List Nat)
    (IH : ∀ (v : Val) (st st' : Ids × Nat) (seen : List Nat) (d : Nat),
      ValWf g v → scanF g f v stack2 st = some st' → IdsLe st'.1 idsF →
      SimRel g idsF stack2 seen →
      ∃ out seen', formatF g idsF none f v d seen = some (out, seen') ∧
        SimRel g idsF stack2 seen') :
    ∀ (fields : List (Key × Val)) (st st' : Ids × Nat) (seen : List Nat)
      (acc : List Str) (dc : Nat) (isArr : Bool),
      (∀ kv ∈ fields, ValWf g kv.2) →
      List.foldlM (fun a kv => scanF g f kv.2 stack2 a) st fields = some st' →
      IdsLe st'.1 idsF →
      SimRel g idsF stack2 seen →
      ∃ lines seen2,
        List.foldlM (fun a kv => do
            let (s, seen3) ← formatF g idsF none f kv.2 dc a.2
            some (a.1 ++ [tabs dc ++ keyStr isArr kv.1 ++ s], seen3))
          (acc, seen) fields = some (lines, seen2) ∧
        SimRel g idsF stack2 seen2 := by
  intro fields
  induction fields with
  | nil =>
    intro st st' seen acc dc isArr _ hscan hle hrel
    exact ⟨acc, seen, by simp, hrel⟩
  | cons kv rest ihl =>
    intro st st' seen acc dc isArr hall hscan hle hrel
    rw [List.foldlM_cons] at hscan
    cases hsc : scanF g f kv.2 stack2 st with
    | none => rw [hsc] at hscan; simp at hscan
    | some st1 =>
      rw [hsc] at hscan
      simp only [Option.bind_eq_bind, Option.some_bind] at hscan
      have hle1 : IdsLe st1.1 idsF :=
        (scanFold_mono g f stack2 (fun v2 a b h2 => scanF_mono g f v2 stack2 a b h2)
          rest st1 st' hscan).comp hle
      obtain ⟨s, seen3, hfmt, hrel3⟩ :=
        IH kv.2 st st1 seen dc (hall kv (List.mem_cons_self _ _)) hsc hle1 hrel
      obtain ⟨lines, seen2, hfold, hrel2⟩ :=
        ihl st1 st' seen3 (acc ++ [tabs dc ++ keyStr isArr kv.1 ++ s]) dc isArr
          (fun kv2 hkv2 => hall kv2 (List.mem_cons_of_mem _ hkv2)) hscan hle hrel3
      refine ⟨lines, seen2, ?_, hrel2⟩
      rw [List.foldlM_cons, hfmt]
      simpa using hfold

/-- Simulation of the format pass by the scan pass: wherever the scan
completed, the format pass completes on related states.  The two passes
prune at the same places: a node on the scan stack has been assigned a
reference id (so the format pass emits the back-reference marker there), and
a seen-set entry off the stack is a leaked keyless node without an id (so
the format pass renders it as an empty object without recursing). -/
theorem formatF_sim (g : Heap) (idsF : Ids) (hwf : HeapWf g)
    (hleaf : ∀ u nd, g.get? u = some nd → nd.fields = [] → lookupId idsF u = none) :
    ∀ (f : Nat) (v : Val) (stack : List Nat) (st st' : Ids × Nat)
      (seen : List Nat) (d : Nat),
      ValWf g v →
      scanF g f v stack st = some st' →
      IdsLe st'.1 idsF →
      SimRel g idsF stack seen →
      ∃ out seen', formatF g idsF none f v d seen = some (out, seen') ∧
        SimRel g idsF stack seen' := by
  intro f
  induction f with
  | zero =>
    intro v stack st st' seen d hv hscan hle hrel
    cases v
    case vref id =>
      rw [scanF] at hscan
      by_cases hmem : id ∈ stack
      · rw [if_pos hmem] at hscan
        injection hscan with hscan
        have hne : lookupId idsF id ≠ none := by
          have h1 := scanF_assigns g 0 id stack st st' hmem
            (by rw [scanF, if_pos hmem, hscan])
          cases hlk : lookupId st'.1 id with
          | none => exact absurd hlk h1
          | some r =>
            have := hle id r hlk
            rw [this]
            simp
        exact ⟨_, seen,
          formatF_marker g idsF 0 id d seen (hrel.2.1 id hmem) hne, hrel⟩
      · rw [if_neg hmem] at hscan
        exact Option.noConfusion hscan
    all_goals
      exact ⟨_, seen, formatF_prim g idsF none 0 d seen _ (by intro id h2; exact Val.noConfusion h2), hrel⟩
  | succ f ih =>
    intro v stack st st' seen d hv hscan hle hrel
    cases v
    case vref id =>
      rw [scanF] at hscan
      by_cases hmem : id ∈ stack
      · rw [if_pos hmem] at hscan
        injection hscan with hscan
        have hne : lookupId idsF id ≠ none := by
          have h1 := scanF_assigns g (f + 1) id stack st st' hmem
            (by rw [scanF, if_pos hmem, hscan])
          cases hlk : lookupId st'.1 id with
          | none => exact absurd hlk h1
          | some r =>
            have := hle id r hlk
            rw [this]
            simp
        exact ⟨_, seen,
          formatF_marker g idsF (f + 1) id d seen (hrel.2.1 id hmem) hne, hrel⟩
      · rw [if_neg hmem] at hscan
        have hid : id < g.length := hv
        obtain ⟨nd, hg⟩ := heap_get_of_lt hid
        rw [hg] at hscan
        change List.foldlM (fun acc kv => scanF g f kv.2 (id :: stack) acc) st nd.fields
          = some st' at hscan
        have hfields : ∀ kv ∈ nd.fields, ValWf g kv.2 := hwf nd (List.get?_mem hg)
        by_cases hseen : id ∈ seen
        · -- leaked keyless node: renders as an empty object, no recursion
          have hleafid : LeafNoId g idsF id := by
            rcases hrel.2.2 id hseen with h1 | h2
            · exact absurd h1 hmem
            · exact h2
          obtain ⟨⟨nd2, hg2, hfe2⟩, hlk⟩ := hleafid
          rw [hg] at hg2
          injection hg2 with hg2
          subst hg2
          have hcond : ¬(id ∈ seen ∧ lookupId idsF id ≠ none) := by
            intro hc
            exact hc.2 hlk
          have heq : ∃ out, formatF g idsF none (f + 1) (.vref id) d seen
              = some (out, seen) := by
            apply Exists.intro
            show formatStep g idsF none (some (formatF g idsF none f)) (.vref id) d seen = _
            rw [formatStep_node g idsF none (formatF g idsF none f) id d seen nd hcond rfl hg,
              if_pos hfe2, seenIns_mem hseen]
          obtain ⟨out, heq⟩ := heq
          exact ⟨out, seen, heq, hrel⟩
        · have hcond : ¬(id ∈ seen ∧ lookupId idsF id ≠ none) := by
            intro hc
            exact hseen hc.1
          have hrel1 : SimRel g idsF (id :: stack) (id :: seen) := by
            refine ⟨List.nodup_cons.mpr ⟨hseen, hrel.1⟩, ?_, ?_⟩
            · intro u hu
              rcases List.mem_cons.mp hu with rfl | hu2
              · exact List.mem_cons_self _ _
              · exact List.mem_cons_of_mem _ (hrel.2.1 u hu2)
            · intro u hu
              rcases List.mem_cons.mp hu with rfl | hu2
              · exact Or.inl (List.mem_cons_self _ _)
              · rcases hrel.2.2 u hu2 with h1 | h2
                · exact Or.inl (List.mem_cons_of_mem _ h1)
                · exact Or.inr h2
          cases hfe : nd.fields with
          | nil =>
            have heq : ∃ out, formatF g idsF none (f + 1) (.vref id) d seen
                = some (out, id :: seen) := by
              apply Exists.intro
              show formatStep g idsF none (some (formatF g idsF none f)) (.vref id) d seen = _
              rw [formatStep_node g idsF none (formatF g idsF none f) id d seen nd hcond rfl hg,
                if_pos hfe, seenIns_not_mem hseen]
            obtain ⟨out, heq⟩ := heq
            refine ⟨out, id :: seen, heq, ?_⟩
            · refine ⟨List.nodup_cons.mpr ⟨hseen, hrel.1⟩, ?_, ?_⟩
              · intro u hu
                exact List.mem_cons_of_mem _ (hrel.2.1 u hu)
              · intro u hu
                rcases List.mem_cons.mp hu with rfl | hu2
                · exact Or.inr ⟨⟨nd, hg, hfe⟩, hleaf u nd hg hfe⟩
                · exact hrel.2.2 u hu2
          | cons kv0 rest0 =>
            rw [hfe] at hscan
            obtain ⟨lines, seen2, hfold, hrel2⟩ :=
              simFold g idsF f (id :: stack)
                (fun v2 a b s2 d2 hv2 hs2 hl2 hr2 => ih v2 (id :: stack) a b s2 d2 hv2 hs2 hl2 hr2)
                (kv0 :: rest0) st st' (id :: seen) [] (d + 1) nd.isArray
                (by rw [hfe] at hfields; exact hfields) hscan hle hrel1
            have heq : ∃ out, formatF g idsF none (f + 1) (.vref id) d seen
                = some (out, seen2.erase id) := by
              apply Exists.intro
              show formatStep g idsF none (some (formatF g idsF none f)) (.vref id) d seen = _
              rw [formatStep_node g idsF none (formatF g idsF none f) id d seen nd hcond rfl hg,
                if_neg (by rw [hfe]; simp), seenIns_not_mem hseen, hfe, hfold]
              rfl
            obtain ⟨out, heq⟩ := heq
            refine ⟨out, seen2.erase id, heq, ?_⟩
            · refine ⟨hrel2.1.erase id, ?_, ?_⟩
              · intro u hu
                have hu2 : u ∈ seen2 := hrel2.2.1 u (List.mem_cons_of_mem _ hu)
                have hune : u ≠ id := by
                  intro heq
                  subst heq
                  exact hmem hu
                exact (List.mem_erase_of_ne hune).mpr hu2
              · intro u hu
                have hu2 : u ∈ seen2 := List.erase_subset _ _ hu
                have hune : u ≠ id := ((List.Nodup.mem_erase_iff hrel2.1).mp hu).1
                rcases hrel2.2.2 u hu2 with h1 | h2
                · rcases List.mem_cons.mp h1 with rfl | h3
                  · exact absurd rfl hune
                  · exact Or.inl h3
                · exact Or.inr h2
    all_goals
      exact ⟨_, seen, formatF_prim g idsF none (f + 1) d seen _ (by intro id h2; exact Val.noConfusion h2), hrel⟩

/-- Counting of leftmost non-overlapping occurrences of a pattern. -/
def countSubF : Nat → Str → Str → Nat
  | 0, _, _ => 0
  | _ + 1, _, [] => 0
  | _ + 1, [], _ :: _ => 0
  | f + 1, c :: rest, p :: ps =>
    if (p :: ps).isPrefixOf (c :: rest) then
      1 + countSubF f ((c :: rest).drop (p :: ps).length) (p :: ps)
    else countSubF f rest (p :: ps)

def countSub (s pat : Str) : Nat := countSubF s.length s pat

/-- The value graph of an object `o` with `o.self = o`. -/
def selfHeap : Heap := [⟨false, false, [(Key.str ("self".toList), Val.vref 0)]⟩]

/-- C7: the structural stringifier terminates on every well-formed value
graph, cyclic ones included — at fuel `heap size + 2` both passes complete,
so no exception and no divergence can arise from cyclic input; and on the
self-referential object `o` with `o.self = o` the result is exactly the
rendering whose defining occurrence carries the `<ref *1>` prefix and whose
single back-reference marker `[Circular *1]` points to it — each occurring
exactly once. -/
theorem claim7_stringifier_terminates_and_marks_cycle :
    (∀ (g : Heap) (v : Val), HeapWf g → ValWf g v →
      (circularToStringF (g.length + 2) g none v).isSome = true) ∧
    circularToString selfHeap none (Val.vref 0) =
      "\x1b[36m<ref *1>\x1b[0m \x7b\n\tself: \x1b[36m[Circular *1]\x1b[0m\n\x7d".toList ∧
    countSub (circularToString selfHeap none (Val.vref 0)) ("[Circular *".toList) = 1 ∧
    countSub (circularToString selfHeap none (Val.vref 0)) ("<ref *".toList) = 1 := by
  refine ⟨?_, by decide, by decide, by decide⟩
  intro g v hwf hv
  have hscan := scanF_total g hwf (g.length + 2) v [] ([], 1) hv List.nodup_nil
    (by simp) (by simp)
  cases hsc : scanF g (g.length + 2) v [] ([], 1) with
  | none => rw [hsc] at hscan; simp at hscan
  | some stF =>
    obtain ⟨idsF, ctrF⟩ := stF
    have hinv : IdsNonLeaf g idsF :=
      scanF_ids_inv g (g.length + 2) v [] ([], 1) (idsF, ctrF) (by simp)
        (by intro n r h; simp [lookupId] at h) hsc
    have hleaf : ∀ u nd, g.get? u = some nd → nd.fields = [] → lookupId idsF u = none := by
      intro u nd hg hfe
      cases hlk : lookupId idsF u with
      | none => rfl
      | some r =>
        obtain ⟨nd2, hg2, hne⟩ := hinv u r hlk
        rw [hg] at hg2
        injection hg2 with hg2
        subst hg2
        exact absurd hfe hne
    obtain ⟨out, seen', hfmt, _⟩ :=
      formatF_sim g idsF hwf hleaf (g.length + 2) v [] ([], 1) (idsF, ctrF) [] 0
        hv hsc IdsLe.rfl ⟨List.nodup_nil, by simp, by simp⟩
    simp [circularToStringF, hsc, hfmt]

/-- Concrete application of the termination theorem at the self-referential
heap. -/
theorem claim7_witness :
    (circularToStringF (selfHeap.length + 2) selfHeap none (Val.vref 0)).isSome = true :=
  claim7_stringifier_terminates_and_marks_cycle.1 selfHeap (Val.vref 0)
    (by decide) (by decide)

/-- The literal characters of a token list (a token `%d` contributes its two
characters). -/
def itemsChars : List Item → Str
  | [] => []
  | .chr c :: rest => c :: itemsChars rest
  | .tok d :: rest => '%' :: d :: itemsChars rest

/-- Tokenization only regroups the template: its items spell the template. -/
theorem itemsChars_scanTokens (cls : Char → Bool) :
    ∀ (n : Nat) (s : Str), s.length ≤ n → itemsChars (scanTokensWith cls s) = s := by
  intro n
  induction n with
  | zero =>
    intro s h
    rw [List.length_eq_zero.mp (Nat.le_zero.mp h)]
    rfl
  | succ n ih =>
    intro s h
    match s with
    | [] => rfl
    | [c] => rfl
    | c :: d :: rest =>
      rw [scanTokensWith]
      by_cases hcd : c = '%' ∧ cls d = true
      · rw [if_pos hcd, itemsChars, ih rest (by simp at h; omega), hcd.1]
      · rw [if_neg hcd, itemsChars, ih (d :: rest) (by simp at h ⊢; omega)]

/-- Literal items pass through the HTML scan unchanged. -/
theorem htmlStepsF_chrs (g : Heap) (conv : Str → Str) (args : List Val) :
    ∀ (A : Str) (rest : List Item) (st : HState),
      htmlStepsF g conv args (A.map Item.chr ++ rest) st =
        htmlStepsF g conv args rest ⟨st.out ++ A, st.idx, st.hasStyle⟩ := by
  intro A
  induction A with
  | nil =>
    intro rest st
    simp only [List.map_nil, List.nil_append, List.append_nil]
  | cons c A2 ih =>
    intro rest st
    simp only [List.map_cons, List.cons_append]
    rw [htmlStepsF, ih rest ⟨st.out ++ [c], st.idx, st.hasStyle⟩]
    simp [List.append_assoc]

/-- Fuel above the length never matters to `replaceAllF`. -/
theorem replaceAllF_fuel (pat rep : Str) :
    ∀ (f : Nat) (s : Str), s.length ≤ f →
      replaceAllF f s pat rep = replaceAllF s.length s pat rep := by
  intro f
  induction f using Nat.strong_induction_on with
  | _ f ihf =>
    intro s h
    match f, s with
    | 0, s =>
      rw [List.length_eq_zero.mp (Nat.le_zero.mp h)]
      rfl
    | f + 1, [] =>
      cases pat with
      | nil => rfl
      | cons p ps => rfl
    | f + 1, c :: rest =>
      cases pat with
      | nil => rfl
      | cons p ps =>
        rw [replaceAllF]
        rw [show (c :: rest).length = rest.length + 1 from rfl, replaceAllF]
        by_cases hpre : ((p :: ps).isPrefixOf (c :: rest)) = true
        · rw [if_pos hpre, if_pos hpre]
          have hd : ((c :: rest).drop (p :: ps).length).length ≤ f := by
            simp only [List.length_drop, List.length_cons]
            simp at h
            omega
          have hd2 : ((c :: rest).drop (p :: ps).length).length ≤ rest.length := by
            simp only [List.length_drop, List.length_cons]
            omega
          rw [ihf f (Nat.lt_succ_self f) _ hd,
            ihf rest.length (by simp at h; omega) _ hd2]
        · rw [if_neg hpre, if_neg hpre]
          have h2 : rest.length ≤ f := by simp at h; omega
          rw [ihf f (Nat.lt_succ_self f) rest h2,
            ihf rest.length (by omega) rest (Nat.le_refl _)]

/-- The one-step equation of `replaceAll` at the clean (wrapper) level. -/
theorem replaceAll_cons (c : Char) (rest : Str) (p : Char) (ps rep : Str) :
    replaceAll (c :: rest) (p :: ps) rep =
      if (p :: ps).isPrefixOf (c :: rest) then
        rep ++ replaceAll ((c :: rest).drop (p :: ps).length) (p :: ps) rep
      else c :: replaceAll rest (p :: ps) rep := by
  rw [replaceAll, show (c :: rest).length = rest.length + 1 from rfl, replaceAllF]
  by_cases hpre : ((p :: ps).isPrefixOf (c :: rest)) = true
  · rw [if_pos hpre, if_pos hpre, replaceAll,
      replaceAllF_fuel (p :: ps) rep rest.length _
        (by simp only [List.length_drop, List.length_cons]; omega)]
  · rw [if_neg hpre, if_neg hpre, replaceAll]

/-- A non-match step of `replaceAll`. -/
theorem replaceAll_step (c : Char) (rest : Str) (p : Char) (ps rep : Str)
    (h : ¬((p :: ps).isPrefixOf (c :: rest)) = true) :
    replaceAll (c :: rest) (p :: ps) rep = c :: replaceAll rest (p :: ps) rep := by
  rw [replaceAll_cons, if_neg h]

/-- A region free of the pattern head passes through `replaceAll`. -/
theorem replaceAll_skip (p : Char) (ps rep : Str) :
    ∀ (x y : Str), (∀ c ∈ x, c ≠ p) →
      replaceAll (x ++ y) (p :: ps) rep = x ++ replaceAll y (p :: ps) rep := by
  intro x
  induction x with
  | nil => intro y _; rfl
  | cons c xs ih =>
    intro y hx
    have hc : c ≠ p := hx c (List.mem_cons_self _ _)
    rw [List.cons_append, replaceAll_step]
    · rw [ih y (fun c2 h2 => hx c2 (List.mem_cons_of_mem _ h2))]
      rfl
    · intro h
      rw [List.isPrefixOf] at h
      simp only [Bool.and_eq_true, beq_iff_eq] at h
      exact hc h.1.symm

/-- Substitution is the identity on strings free of the pattern. -/
theorem substChar_of_not_mem {ch : Char} {rep : Str} :
    ∀ {s : Str}, (∀ c ∈ s, c ≠ ch) → substChar s ch rep = s := by
  intro s
  induction s with
  | nil => intro _; rfl
  | cons c xs ih =>
    intro h
    rw [substChar, if_neg (h c (List.mem_cons_self _ _)),
      ih (fun c2 h2 => h c2 (List.mem_cons_of_mem _ h2))]
    rfl

/-- Substitution with a non-empty replacement preserves non-emptiness. -/
theorem substChar_ne_nil {ch : Char} {rep : Str} (hrep : rep ≠ []) :
    ∀ {s : Str}, s ≠ [] → substChar s ch rep ≠ [] := by
  intro s hs
  cases s with
  | nil => exact absurd rfl hs
  | cons c xs =>
    rw [substChar]
    by_cases hc : c = ch
    · rw [if_pos hc]
      intro h
      exact hrep (List.append_eq_nil.mp h).1
    · rw [if_neg hc]
      simp

/-- The escaped style value is non-empty when its source is. -/
theorem escapeHtml_ne_nil {s : Str} (hs : s ≠ []) : escapeHtml s ≠ [] := by
  unfold escapeHtml
  exact substChar_ne_nil (by decide)
    (substChar_ne_nil (by decide) (substChar_ne_nil (by decide)
      (substChar_ne_nil (by decide) hs)))

/-- `trim` removes exactly the trailing space the formatter appended when the
markup starts with a tag opener and ends with a tag closer. -/
theorem trimJs_wrap (t u : Str) (s : Str) (h1 : s = '<' :: t) (h2 : s = u ++ ['>']) :
    trimJs (s ++ [' ']) = s := by
  unfold trimJs
  have hd : (s ++ [' ']).dropWhile isJsWs = s ++ [' '] := by
    rw [h1]
    rfl
  rw [hd]
  have hr : (s ++ [' ']).reverse = ' ' :: s.reverse := by
    simp
  rw [hr]
  have h3 : (' ' :: s.reverse).dropWhile isJsWs = s.reverse := by
    rw [List.dropWhile_cons]
    rw [if_pos (by decide)]
    rw [h2]
    simp
    rfl
  rw [h3, List.reverse_reverse]

/-- Reading one tag: characters up to the closing `>`, a double quote
toggling the in-attribute state, within which `>` stays literal. -/
def readTag : Str → Bool → Str × Str
  | [], _ => ([], [])
  | c :: r, q =>
    if c = '\x22' then ('\x22' :: (readTag r (!q)).1, (readTag r (!q)).2)
    else if c = '>' ∧ q = false then ([], r)
    else (c :: (readTag r q).1, (readTag r q).2)

theorem readTag_len : ∀ (s : Str) (q : Bool), (readTag s q).2.length ≤ s.length := by
  intro s
  induction s with
  | nil => intro q; simp [readTag]
  | cons c r ih =>
    intro q
    rw [readTag]
    by_cases hc : c = '\x22'
    · rw [if_pos hc]
      have := ih (!q)
      simp only [List.length_cons]
      omega
    · rw [if_neg hc]
      by_cases hgt : c = '>' ∧ q = false
      · rw [if_pos hgt]
        simp [Nat.le_succ]
      · rw [if_neg hgt]
        have := ih q
        simp only [List.length_cons]
        omega

/-- The tags of an HTML fragment: the contents of each `< ... >` region,
scanned left to right with attribute-quote awareness. -/
def tagsOf : Str → List Str
  | [] => []
  | c :: rest =>
    if c = '<' then (readTag rest false).1 :: tagsOf (readTag rest false).2
    else tagsOf rest
termination_by s => s.length
decreasing_by
· have := readTag_len rest false
  simp only [List.length_cons]
  omega
· simp [Nat.lt_succ_self]

/-- Text free of tag openers contributes no tags. -/
theorem tagsOf_skip : ∀ (x y : Str), (∀ c ∈ x, c ≠ '<') →
    tagsOf (x ++ y) = tagsOf y := by
  intro x
  induction x with
  | nil => intro y _; rfl
  | cons c xs ih =>
    intro y h
    rw [List.cons_append, tagsOf, if_neg (h c (List.mem_cons_self _ _))]
    exact ih y (fun c2 h2 => h c2 (List.mem_cons_of_mem _ h2))

/-- Reading through ordinary attribute-free tag text. -/
theorem readTag_skip : ∀ (x y : Str), (∀ c ∈ x, c ≠ '>' ∧ c ≠ '\x22') →
    readTag (x ++ y) false = (x ++ (readTag y false).1, (readTag y false).2) := by
  intro x
  induction x with
  | nil => intro y _; rfl
  | cons c xs ih =>
    intro y h
    rw [List.cons_append, readTag,
      if_neg (h c (List.mem_cons_self _ _)).2,
      if_neg (by
        intro hc
        exact (h c (List.mem_cons_self _ _)).1 hc.1),
      ih y (fun c2 h2 => h c2 (List.mem_cons_of_mem _ h2))]
    rfl

/-- Reading through a quoted attribute value: everything except the closing
quote stays inside the tag. -/
theorem readTag_quoted : ∀ (x y : Str), (∀ c ∈ x, c ≠ '\x22') →
    readTag (x ++ y) true = (x ++ (readTag y true).1, (readTag y true).2) := by
  intro x
  induction x with
  | nil => intro y _; rfl
  | cons c xs ih =>
    intro y h
    rw [List.cons_append, readTag,
      if_neg (h c (List.mem_cons_self _ _)),
      if_neg (by intro hc; exact Bool.noConfusion hc.2),
      ih y (fun c2 h2 => h c2 (List.mem_cons_of_mem _ h2))]
    rfl

/-- A newline-rewritten text region contributes exactly its break tags. -/
theorem tagsOf_br : ∀ (x y : Str), (∀ c ∈ x, c ≠ '<') →
    tagsOf (substChar x '\n' ("<br/>\n".toList) ++ y) =
      List.replicate (x.count '\n') ("br/".toList) ++ tagsOf y := by
  intro x
  induction x with
  | nil => intro y _; simp [substChar]
  | cons c xs ih =>
    intro y h
    rw [substChar]
    by_cases hc : c = '\n'
    · rw [if_pos hc]
      have hread : readTag ("br/>".toList ++ ('\n' :: (substChar xs '\n' ("<br/>\n".toList) ++ y))) false
          = ("br/".toList, '\n' :: (substChar xs '\n' ("<br/>\n".toList) ++ y)) := rfl
      rw [show ("<br/>\n".toList ++ substChar xs '\n' ("<br/>\n".toList)) ++ y
          = '<' :: ("br/>".toList ++ ('\n' :: (substChar xs '\n' ("<br/>\n".toList) ++ y))) by simp]
      rw [tagsOf, if_pos rfl, hread]
      simp only []
      rw [show ('\n' :: (substChar xs '\n' ("<br/>\n".toList) ++ y))
          = ['\n'] ++ (substChar xs '\n' ("<br/>\n".toList) ++ y) from rfl]
      rw [tagsOf_skip ['\n'] _ (by decide)]
      rw [ih y (fun c2 h2 => h c2 (List.mem_cons_of_mem _ h2))]
      rw [hc]
      simp [List.count_cons, List.replicate]
    · rw [if_neg hc]
      rw [show ([c] ++ substChar xs '\n' ("<br/>\n".toList)) ++ y
          = [c] ++ (substChar xs '\n' ("<br/>\n".toList) ++ y) by simp]
      rw [tagsOf_skip [c] _ (by
        intro c2 h2
        rw [List.mem_singleton.mp h2]
        exact h c (List.mem_cons_self _ _))]
      rw [ih y (fun c2 h2 => h c2 (List.mem_cons_of_mem _ h2))]
      have : (c :: xs).count '\n' = xs.count '\n' := by
        simp [List.count_cons, hc]
      rw [this]

/-- A single-character pattern makes `replaceAll` a character substitution. -/
theorem replaceAll_single (p : Char) (rep : Str) :
    ∀ s : Str, replaceAll s [p] rep = substChar s p rep := by
  intro s
  induction s with
  | nil => rfl
  | cons c rest ih =>
    rw [replaceAll_cons, substChar]
    by_cases hc : c = p
    · rw [if_pos (by simp [List.isPrefixOf, hc]), if_pos hc]
      simp only [List.length_cons, List.length_nil, List.drop_succ_cons, List.drop_zero]
      rw [ih]
    · rw [if_neg (by simp [List.isPrefixOf]; intro h; exact hc h.symm), if_neg hc]
      rw [ih]
      rfl

/-- No suffix of `s` starts with the pattern. -/
def NoMatch (pat s : Str) : Prop :=
  ∀ s2, s2 <:+ s → pat.isPrefixOf s2 = false

theorem noMatch_nil (p : Char) (ps : Str) : NoMatch (p :: ps) [] := by
  intro s2 h2
  rw [List.suffix_nil.mp h2]
  rfl

theorem noMatch_cons {p : Char} {ps : Str} {c : Char} {y : Str}
    (h1 : (p :: ps).isPrefixOf (c :: y) = false) (h2 : NoMatch (p :: ps) y) :
    NoMatch (p :: ps) (c :: y) := by
  intro s2 hs
  rcases List.suffix_cons_iff.mp hs with h | h
  · rw [h]; exact h1
  · exact h2 s2 h

/-- A region free of the pattern head cannot start a match anywhere. -/
theorem noMatch_head_free (p : Char) (ps : Str) :
    ∀ (x y : Str), (∀ c ∈ x, c ≠ p) → NoMatch (p :: ps) y →
      NoMatch (p :: ps) (x ++ y) := by
  intro x
  induction x with
  | nil => intro y _ hy; exact hy
  | cons c xs ih =>
    intro y hx hy
    rw [List.cons_append]
    refine noMatch_cons ?_ (ih y (fun c2 h2 => hx c2 (List.mem_cons_of_mem _ h2)) hy)
    rw [List.isPrefixOf]
    have : (p == c) = false := by
      simp only [beq_eq_false_iff_ne, ne_eq]
      intro h
      exact hx c (List.mem_cons_self _ _) h.symm
    rw [this]
    rfl

/-- Without a match anywhere, `replaceAll` is the identity. -/
theorem replaceAll_of_noMatch (pat rep : Str) (hpat : pat ≠ []) :
    ∀ s : Str, NoMatch pat s → replaceAll s pat rep = s := by
  cases pat with
  | nil => exact absurd rfl hpat
  | cons p ps =>
    intro s
    induction s with
    | nil => intro _; rfl
    | cons c rest ih =>
      intro h
      rw [replaceAll_cons,
        if_neg (by rw [h (c :: rest) (List.suffix_refl _)]; simp)]
      rw [ih (fun s2 h2 => h s2 (h2.trans (List.suffix_cons c rest)))]

/-- A tag bears a style attribute when it reads `span style=\x22...`. -/
def isStyleTag (tag : Str) : Bool :=
  ("span style=\x22".toList).isPrefixOf tag

theorem countP_replicate (p : Str → Bool) (a : Str) :
    ∀ n : Nat, (List.replicate n a).countP p = if p a then n else 0 := by
  intro n
  induction n with
  | zero => simp [List.replicate]
  | succ n ih =>
    rw [List.replicate, List.countP_cons, ih]
    by_cases h : p a
    · simp [h]
    · simp [h]

/-- The HTML scan over a template with one `%c` specifier: the literal text
passes through and the style argument arrives escaped inside the reopened
container\x27s style attribute. -/
theorem htmlScan_c (g : Heap) (conv : Str → Str) (t : Str) (v : Val) (A B : Str)
    (hitems : scanTokensWith htmlCls (conv t) =
      A.map Item.chr ++ Item.tok 'c' :: B.map Item.chr) :
    htmlStepsF g conv [Val.vstr t, v] (scanTokensWith htmlCls (conv t)) ⟨[], 1, false⟩ =
      ⟨A ++ ("</span><span style=\x22".toList
          ++ (escapeHtml (safeString g v) ++ ("\x22>".toList ++ B))), 2, true⟩ := by
  rw [hitems, htmlStepsF_chrs]
  rw [htmlStepsF]
  rw [if_neg (by decide), if_neg (by simp)]
  show htmlStepsF g conv [Val.vstr t, v] (B.map Item.chr)
      ⟨(([] : Str) ++ A) ++ "</span><span style=\x22".toList
          ++ escapeHtml (safeString g v) ++ "\x22>".toList, 1 + 1, true⟩ = _
  rw [show B.map Item.chr = B.map Item.chr ++ ([] : List Item) by simp]
  rw [htmlStepsF_chrs]
  rw [htmlStepsF]
  simp [List.append_assoc]

theorem isPrefixOf_false_of_head_ne {p c : Char} {ps y : Str} (h : p ≠ c) :
    (p :: ps).isPrefixOf (c :: y) = false := by
  rw [List.isPrefixOf]
  have : (p == c) = false := by
    simp only [beq_eq_false_iff_ne, ne_eq]
    exact h
  rw [this, Bool.false_and]

theorem isPrefixOf_shared_head :
    ∀ (x ps ys : Str), (x ++ ps).isPrefixOf (x ++ ys) = ps.isPrefixOf ys := by
  intro x
  induction x with
  | nil => intro ps ys; rfl
  | cons c xs ih =>
    intro ps ys
    rw [List.cons_append, List.cons_append, List.isPrefixOf, beq_self_eq_true,
      Bool.true_and, ih]

/-- The collapse pattern for empty style attributes never matches the markup
generated for a non-empty escaped style argument. -/
theorem noMatch_pat1_full (A E B : Str) (hA : ∀ c ∈ A, c ≠ '<') (hB : ∀ c ∈ B, c ≠ '<')
    (hE : ∀ c ∈ E, c ≠ '<') (hEq : ∀ c ∈ E, c ≠ '\x22') (hEne : E ≠ []) :
    NoMatch ("<span style=\x22\x22>".toList)
      ("<span>".toList ++ (A ++ ("</span><span style=\x22".toList
        ++ (E ++ ("\x22>".toList ++ (B ++ "</span>".toList)))))) := by
  obtain ⟨e, E2, rfl⟩ := List.exists_cons_of_ne_nil hEne
  have n1 : NoMatch ("<span style=\x22\x22>".toList) ("/span>".toList ++ ([] : Str)) :=
    noMatch_head_free _ _ _ _ (by decide) (noMatch_nil _ _)
  rw [List.append_nil] at n1
  have n2 : NoMatch ("<span style=\x22\x22>".toList) ("</span>".toList) :=
    noMatch_cons (by decide) n1
  have n3 : NoMatch ("<span style=\x22\x22>".toList) (B ++ "</span>".toList) :=
    noMatch_head_free _ _ _ _ hB n2
  have n4 : NoMatch ("<span style=\x22\x22>".toList)
      ("\x22>".toList ++ (B ++ "</span>".toList)) :=
    noMatch_head_free _ _ _ _ (by decide) n3
  have n5 : NoMatch ("<span style=\x22\x22>".toList)
      ((e :: E2) ++ ("\x22>".toList ++ (B ++ "</span>".toList))) :=
    noMatch_head_free _ _ _ _ hE n4
  have n6 : ("<span style=\x22\x22>".toList).isPrefixOf
      ("<span style=\x22".toList
        ++ (e :: (E2 ++ ("\x22>".toList ++ (B ++ "</span>".toList))))) = false := by
    show (("<span style=\x22".toList) ++ "\x22>".toList).isPrefixOf
        (("<span style=\x22".toList)
          ++ (e :: (E2 ++ ("\x22>".toList ++ (B ++ "</span>".toList))))) = false
    rw [isPrefixOf_shared_head]
    exact isPrefixOf_false_of_head_ne (Ne.symm (hEq e (List.mem_cons_self _ _)))
  have n7 : NoMatch ("<span style=\x22\x22>".toList)
      ("<span style=\x22".toList
        ++ ((e :: E2) ++ ("\x22>".toList ++ (B ++ "</span>".toList)))) :=
    noMatch_cons n6
      (noMatch_head_free _ _ ("span style=".toList) _ (by decide)
        (noMatch_cons (isPrefixOf_false_of_head_ne (by decide)) n5))
  have n8 : NoMatch ("<span style=\x22\x22>".toList)
      ("/span>".toList ++ ("<span style=\x22".toList
        ++ ((e :: E2) ++ ("\x22>".toList ++ (B ++ "</span>".toList))))) :=
    noMatch_head_free _ _ _ _ (by decide) n7
  have n9c : ("<span style=\x22\x22>".toList).isPrefixOf
      ("</span><span style=\x22".toList
        ++ ((e :: E2) ++ ("\x22>".toList ++ (B ++ "</span>".toList)))) = false := by
    show ((['<'] : Str) ++ "span style=\x22\x22>".toList).isPrefixOf
        ((['<'] : Str) ++ ("/span>".toList ++ ("<span style=\x22".toList
          ++ ((e :: E2) ++ ("\x22>".toList ++ (B ++ "</span>".toList)))))) = false
    rw [isPrefixOf_shared_head]
    exact isPrefixOf_false_of_head_ne (by decide)
  have n9 : NoMatch ("<span style=\x22\x22>".toList)
      ("</span><span style=\x22".toList
        ++ ((e :: E2) ++ ("\x22>".toList ++ (B ++ "</span>".toList)))) :=
    noMatch_cons n9c n8
  have n10 : NoMatch ("<span style=\x22\x22>".toList)
      (A ++ ("</span><span style=\x22".toList
        ++ ((e :: E2) ++ ("\x22>".toList ++ (B ++ "</span>".toList))))) :=
    noMatch_head_free _ _ _ _ hA n9
  have n11c : ("<span style=\x22\x22>".toList).isPrefixOf
      ("<span>".toList ++ (A ++ ("</span><span style=\x22".toList
        ++ ((e :: E2) ++ ("\x22>".toList ++ (B ++ "</span>".toList)))))) = false := by
    show (("<span".toList) ++ (' ' :: "style=\x22\x22>".toList)).isPrefixOf
        (("<span".toList) ++ ('>' :: (A ++ ("</span><span style=\x22".toList
          ++ ((e :: E2) ++ ("\x22>".toList ++ (B ++ "</span>".toList))))))) = false
    rw [isPrefixOf_shared_head]
    exact isPrefixOf_false_of_head_ne (by decide)
  exact noMatch_cons n11c
    (noMatch_head_free _ _ ("span>".toList) _ (by decide) n10)

/-- The vacuous-container collapse pattern never matches the style container
and what follows it. -/
theorem noMatch_pat2_core (E B : Str) (hB : ∀ c ∈ B, c ≠ '<') (hE : ∀ c ∈ E, c ≠ '<') :
    NoMatch ("<span></span>".toList)
      ("<span style=\x22".toList
        ++ (E ++ ("\x22>".toList ++ (B ++ "</span>".toList)))) := by
  have n1 : NoMatch ("<span></span>".toList) ("/span>".toList ++ ([] : Str)) :=
    noMatch_head_free _ _ _ _ (by decide) (noMatch_nil _ _)
  rw [List.append_nil] at n1
  have n2 : NoMatch ("<span></span>".toList) ("</span>".toList) :=
    noMatch_cons (by decide) n1
  have n3 : NoMatch ("<span></span>".toList) (B ++ "</span>".toList) :=
    noMatch_head_free _ _ _ _ hB n2
  have n4 : NoMatch ("<span></span>".toList)
      ("\x22>".toList ++ (B ++ "</span>".toList)) :=
    noMatch_head_free _ _ _ _ (by decide) n3
  have n5 : NoMatch ("<span></span>".toList)
      (E ++ ("\x22>".toList ++ (B ++ "</span>".toList))) :=
    noMatch_head_free _ _ _ _ hE n4
  have n6 : ("<span></span>".toList).isPrefixOf
      ("<span style=\x22".toList
        ++ (E ++ ("\x22>".toList ++ (B ++ "</span>".toList)))) = false := by
    show (("<span".toList) ++ ('>' :: "</span>".toList)).isPrefixOf
        (("<span".toList) ++ (' ' :: ("style=\x22".toList
          ++ (E ++ ("\x22>".toList ++ (B ++ "</span>".toList)))))) = false
    rw [isPrefixOf_shared_head]
    exact isPrefixOf_false_of_head_ne (by decide)
  exact noMatch_cons n6
    (noMatch_head_free _ _ ("span style=".toList) _ (by decide)
      (noMatch_cons (isPrefixOf_false_of_head_ne (by decide)) n5))

/-- With literal text before the specifier, the collapse pattern matches
nowhere at all. -/
theorem noMatch_pat2_full (a : Char) (A2 E B : Str) (ha : a ≠ '<')
    (hA2 : ∀ c ∈ A2, c ≠ '<') (hB : ∀ c ∈ B, c ≠ '<') (hE : ∀ c ∈ E, c ≠ '<') :
    NoMatch ("<span></span>".toList)
      ("<span>".toList ++ ((a :: A2) ++ ("</span><span style=\x22".toList
        ++ (E ++ ("\x22>".toList ++ (B ++ "</span>".toList)))))) := by
  have n5 := noMatch_pat2_core E B hB hE
  have n8 : NoMatch ("<span></span>".toList)
      ("/span>".toList ++ ("<span style=\x22".toList
        ++ (E ++ ("\x22>".toList ++ (B ++ "</span>".toList))))) :=
    noMatch_head_free _ _ _ _ (by decide) n5
  have n9c : ("<span></span>".toList).isPrefixOf
      ("</span><span style=\x22".toList
        ++ (E ++ ("\x22>".toList ++ (B ++ "</span>".toList)))) = false := by
    show ((['<'] : Str) ++ "span></span>".toList).isPrefixOf
        ((['<'] : Str) ++ ("/span>".toList ++ ("<span style=\x22".toList
          ++ (E ++ ("\x22>".toList ++ (B ++ "</span>".toList)))))) = false
    rw [isPrefixOf_shared_head]
    exact isPrefixOf_false_of_head_ne (by decide)
  have n9 : NoMatch ("<span></span>".toList)
      ("</span><span style=\x22".toList
        ++ (E ++ ("\x22>".toList ++ (B ++ "</span>".toList)))) :=
    noMatch_cons n9c n8
  have n10 : NoMatch ("<span></span>".toList)
      ((a :: A2) ++ ("</span><span style=\x22".toList
        ++ (E ++ ("\x22>".toList ++ (B ++ "</span>".toList))))) :=
    noMatch_head_free _ _ _ _ (by
      intro c hc
      rcases List.mem_cons.mp hc with h | h
      · rw [h]; exact ha
      · exact hA2 c h) n9
  have n11c : ("<span></span>".toList).isPrefixOf
      ("<span>".toList ++ ((a :: A2) ++ ("</span><span style=\x22".toList
        ++ (E ++ ("\x22>".toList ++ (B ++ "</span>".toList)))))) = false := by
    show (("<span>".toList) ++ "</span>".toList).isPrefixOf
        (("<span>".toList) ++ ((a :: A2) ++ ("</span><span style=\x22".toList
          ++ (E ++ ("\x22>".toList ++ (B ++ "</span>".toList)))))) = false
    rw [isPrefixOf_shared_head]
    exact isPrefixOf_false_of_head_ne (Ne.symm ha)
  exact noMatch_cons n11c
    (noMatch_head_free _ _ ("span>".toList) _ (by decide) n10)

/-- Parsing the style container: its tag reads the full escaped attribute,
and the text after it yields only break tags and the closing tag. -/
theorem tagsOf_core (E B : Str) (hEq : ∀ c ∈ E, c ≠ '\x22') (hB : ∀ c ∈ B, c ≠ '<') :
    tagsOf ("<span style=\x22".toList
        ++ (substChar E '\n' ("<br/>\n".toList)
          ++ ("\x22>".toList
            ++ (substChar B '\n' ("<br/>\n".toList) ++ "</span>".toList)))) =
      ("span style=\x22".toList ++ (substChar E '\n' ("<br/>\n".toList) ++ ['\x22'])) ::
        (List.replicate (B.count '\n') ("br/".toList) ++ ["/span".toList]) := by
  have hsEq : ∀ c ∈ substChar E '\n' ("<br/>\n".toList), c ≠ '\x22' := by
    intro c hc
    rcases mem_substChar hc with ⟨h1, _⟩ | h2
    · exact hEq c h1
    · have hbr : ∀ c ∈ ("<br/>\n".toList), c ≠ '\x22' := by decide
      exact hbr c h2
  show tagsOf ('<' :: ("span style=".toList
      ++ ('\x22' :: (substChar E '\n' ("<br/>\n".toList)
        ++ ('\x22' :: ('>' :: (substChar B '\n' ("<br/>\n".toList)
          ++ "</span>".toList))))))) = _
  rw [tagsOf, if_pos rfl]
  have r5 : readTag ('>' :: (substChar B '\n' ("<br/>\n".toList)
      ++ "</span>".toList)) false
      = ([], substChar B '\n' ("<br/>\n".toList) ++ "</span>".toList) := by
    rw [readTag, if_neg (by decide), if_pos ⟨rfl, rfl⟩]
  have r4 : readTag ('\x22' :: ('>' :: (substChar B '\n' ("<br/>\n".toList)
      ++ "</span>".toList))) true
      = (['\x22'], substChar B '\n' ("<br/>\n".toList) ++ "</span>".toList) := by
    rw [readTag, if_pos rfl]
    show ('\x22' :: (readTag _ false).1, (readTag _ false).2) = _
    rw [r5]
  have r3 : readTag (substChar E '\n' ("<br/>\n".toList)
      ++ ('\x22' :: ('>' :: (substChar B '\n' ("<br/>\n".toList)
        ++ "</span>".toList)))) true
      = (substChar E '\n' ("<br/>\n".toList) ++ ['\x22'],
         substChar B '\n' ("<br/>\n".toList) ++ "</span>".toList) := by
    rw [readTag_quoted _ _ hsEq, r4]
  have r2 : readTag ('\x22' :: (substChar E '\n' ("<br/>\n".toList)
      ++ ('\x22' :: ('>' :: (substChar B '\n' ("<br/>\n".toList)
        ++ "</span>".toList))))) false
      = ('\x22' :: (substChar E '\n' ("<br/>\n".toList) ++ ['\x22']),
         substChar B '\n' ("<br/>\n".toList) ++ "</span>".toList) := by
    rw [readTag, if_pos rfl]
    show ('\x22' :: (readTag _ true).1, (readTag _ true).2) = _
    rw [r3]
  have r1 : readTag ("span style=".toList
      ++ ('\x22' :: (substChar E '\n' ("<br/>\n".toList)
        ++ ('\x22' :: ('>' :: (substChar B '\n' ("<br/>\n".toList)
          ++ "</span>".toList)))))) false
      = ("span style=".toList
          ++ ('\x22' :: (substChar E '\n' ("<br/>\n".toList) ++ ['\x22'])),
         substChar B '\n' ("<br/>\n".toList) ++ "</span>".toList) := by
    rw [readTag_skip _ _ (by decide), r2]
  rw [r1]
  have t6 : tagsOf ("</span>".toList) = ["/span".toList] := by
    show tagsOf ('<' :: "/span>".toList) = _
    rw [tagsOf, if_pos rfl]
    have : readTag ("/span>".toList) false = ("/span".toList, []) := rfl
    rw [this]
    show "/span".toList :: tagsOf [] = _
    rw [tagsOf]
  show ("span style=".toList
      ++ ('\x22' :: (substChar E '\n' ("<br/>\n".toList) ++ ['\x22'])))
    :: tagsOf (substChar B '\n' ("<br/>\n".toList) ++ "</span>".toList) = _
  rw [tagsOf_br B _ hB, t6]
  rfl

/-- Parsing the whole enclosing container: the outer tags, the break tags of
the literal text, and exactly the one style container from `tagsOf_core`. -/
theorem tagsOf_full (A E B : Str) (hA : ∀ c ∈ A, c ≠ '<')
    (hEq : ∀ c ∈ E, c ≠ '\x22') (hB : ∀ c ∈ B, c ≠ '<') :
    tagsOf ("<span>".toList ++ (substChar A '\n' ("<br/>\n".toList)
        ++ ("</span><span style=\x22".toList
          ++ (substChar E '\n' ("<br/>\n".toList)
            ++ ("\x22>".toList
              ++ (substChar B '\n' ("<br/>\n".toList) ++ "</span>".toList)))))) =
      "span".toList :: (List.replicate (A.count '\n') ("br/".toList)
        ++ ("/span".toList
          :: (("span style=\x22".toList
              ++ (substChar E '\n' ("<br/>\n".toList) ++ ['\x22']))
            :: (List.replicate (B.count '\n') ("br/".toList)
              ++ ["/span".toList])))) := by
  show tagsOf ('<' :: ("span".toList ++ ('>' :: (substChar A '\n' ("<br/>\n".toList)
      ++ ("</span><span style=\x22".toList
        ++ (substChar E '\n' ("<br/>\n".toList)
          ++ ("\x22>".toList
            ++ (substChar B '\n' ("<br/>\n".toList) ++ "</span>".toList)))))))) = _
  rw [tagsOf, if_pos rfl]
  have r0 : readTag ("span".toList ++ ('>' :: (substChar A '\n' ("<br/>\n".toList)
      ++ ("</span><span style=\x22".toList
        ++ (substChar E '\n' ("<br/>\n".toList)
          ++ ("\x22>".toList
            ++ (substChar B '\n' ("<br/>\n".toList) ++ "</span>".toList))))))) false
      = ("span".toList,
         substChar A '\n' ("<br/>\n".toList)
          ++ ("</span><span style=\x22".toList
            ++ (substChar E '\n' ("<br/>\n".toList)
              ++ ("\x22>".toList
                ++ (substChar B '\n' ("<br/>\n".toList) ++ "</span>".toList))))) := by
    rw [readTag_skip _ _ (by decide), readTag, if_neg (by decide),
      if_pos ⟨rfl, rfl⟩]
    simp
  rw [r0]
  show "span".toList :: tagsOf (substChar A '\n' ("<br/>\n".toList)
      ++ ("</span><span style=\x22".toList
        ++ (substChar E '\n' ("<br/>\n".toList)
          ++ ("\x22>".toList
            ++ (substChar B '\n' ("<br/>\n".toList) ++ "</span>".toList))))) = _
  rw [tagsOf_br A _ hA]
  show _ = "span".toList :: (List.replicate (A.count '\n') ("br/".toList)
      ++ ("/span".toList
        :: (("span style=\x22".toList
            ++ (substChar E '\n' ("<br/>\n".toList) ++ ['\x22']))
          :: (List.replicate (B.count '\n') ("br/".toList)
            ++ ["/span".toList]))))
  have t1 : tagsOf ("</span><span style=\x22".toList
      ++ (substChar E '\n' ("<br/>\n".toList)
        ++ ("\x22>".toList
          ++ (substChar B '\n' ("<br/>\n".toList) ++ "</span>".toList)))) =
      "/span".toList
        :: (("span style=\x22".toList
            ++ (substChar E '\n' ("<br/>\n".toList) ++ ['\x22']))
          :: (List.replicate (B.count '\n') ("br/".toList)
            ++ ["/span".toList])) := by
    show tagsOf ('<' :: ("/span".toList ++ ('>' :: ("<span style=\x22".toList
        ++ (substChar E '\n' ("<br/>\n".toList)
          ++ ("\x22>".toList
            ++ (substChar B '\n' ("<br/>\n".toList) ++ "</span>".toList))))))) = _
    rw [tagsOf, if_pos rfl]
    have rr : readTag ("/span".toList ++ ('>' :: ("<span style=\x22".toList
        ++ (substChar E '\n' ("<br/>\n".toList)
          ++ ("\x22>".toList
            ++ (substChar B '\n' ("<br/>\n".toList) ++ "</span>".toList)))))) false
        = ("/span".toList,
           "<span style=\x22".toList
            ++ (substChar E '\n' ("<br/>\n".toList)
              ++ ("\x22>".toList
                ++ (substChar B '\n' ("<br/>\n".toList) ++ "</span>".toList)))) := by
      rw [readTag_skip _ _ (by decide), readTag, if_neg (by decide),
        if_pos ⟨rfl, rfl⟩]
      simp
    rw [rr]
    show "/span".toList :: tagsOf ("<span style=\x22".toList
        ++ (substChar E '\n' ("<br/>\n".toList)
          ++ ("\x22>".toList
            ++ (substChar B '\n' ("<br/>\n".toList) ++ "</span>".toList)))) = _
    rw [tagsOf_core E B hEq hB]
  rw [t1]

theorem isPrefixOf_append_self (x y : Str) : x.isPrefixOf (x ++ y) = true := by
  have h := isPrefixOf_shared_head x [] y
  rw [List.append_nil] at h
  rw [h]
  cases y with
  | nil => rfl
  | cons c cs => rfl

theorem replaceAll_head_match (pat rep y : Str) (hpat : pat ≠ []) :
    replaceAll (pat ++ y) pat rep = rep ++ replaceAll y pat rep := by
  cases pat with
  | nil => exact absurd rfl hpat
  | cons p ps =>
    rw [List.cons_append, replaceAll_cons,
      if_pos (by rw [show p :: (ps ++ y) = (p :: ps) ++ y from rfl,
        isPrefixOf_append_self])]
    rw [show p :: (ps ++ y) = (p :: ps) ++ y from rfl, List.drop_left]

set_option maxHeartbeats 1600000 in
/-- The HTML formatter\x27s output for a one-specifier template with leading
literal text, in closed form. -/
theorem argsToHtml_c_out_cons (g : Heap) (conv : Str → Str) (t : Str) (v : Val)
    (a : Char) (A2 B : Str)
    (hitems : scanTokensWith htmlCls (conv t) =
      (a :: A2).map Item.chr ++ Item.tok 'c' :: B.map Item.chr)
    (hA : ∀ c ∈ (a :: A2), c ≠ '<') (hB : ∀ c ∈ B, c ≠ '<')
    (hne : safeString g v ≠ []) :
    argsToHtml g conv [Val.vstr t, v] =
      "<span>".toList ++ (substChar (a :: A2) '\n' ("<br/>\n".toList)
        ++ ("</span><span style=\x22".toList
          ++ (substChar (escapeHtml (safeString g v)) '\n' ("<br/>\n".toList)
            ++ ("\x22>".toList
              ++ (substChar B '\n' ("<br/>\n".toList) ++ "</span>".toList))))) := by
  have hEne : escapeHtml (safeString g v) ≠ [] := escapeHtml_ne_nil hne
  have hElt : ∀ c ∈ escapeHtml (safeString g v), c ≠ '<' :=
    fun c hc h => escapeHtml_no_lt _ (h ▸ hc)
  have hEq2 : ∀ c ∈ escapeHtml (safeString g v), c ≠ '\x22' :=
    fun c hc h => escapeHtml_no_quote _ (h ▸ hc)
  simp only [argsToHtml]
  rw [htmlScan_c g conv t v (a :: A2) B hitems]
  have hif : (if ((⟨(a :: A2) ++ ("</span><span style=\x22".toList
      ++ (escapeHtml (safeString g v) ++ ("\x22>".toList ++ B))),
      2, true⟩ : HState)).hasStyle = true then
        "<span>".toList ++ ((⟨(a :: A2) ++ ("</span><span style=\x22".toList
      ++ (escapeHtml (safeString g v) ++ ("\x22>".toList ++ B))),
      2, true⟩ : HState)).out ++ "</span>".toList
      else ((⟨(a :: A2) ++ ("</span><span style=\x22".toList
      ++ (escapeHtml (safeString g v) ++ ("\x22>".toList ++ B))),
      2, true⟩ : HState)).out) =
      "<span>".toList ++ ((a :: A2) ++ ("</span><span style=\x22".toList
      ++ (escapeHtml (safeString g v)
        ++ ("\x22>".toList ++ (B ++ "</span>".toList))))) := by
    rw [if_pos rfl]
    simp [List.append_assoc]
  rw [hif]
  have hsuf : ' ' :: joinSp (List.map (argToHtml g conv)
      (List.drop ((⟨(a :: A2) ++ ("</span><span style=\x22".toList
      ++ (escapeHtml (safeString g v) ++ ("\x22>".toList ++ B))),
      2, true⟩ : HState)).idx [Val.vstr t, v])) = [' '] := rfl
  rw [hsuf]
  rw [replaceAll_of_noMatch _ _ (by decide) _
    (noMatch_pat1_full (a :: A2) (escapeHtml (safeString g v)) B hA hB hElt hEq2 hEne)]
  rw [replaceAll_of_noMatch _ _ (by decide) _
    (noMatch_pat2_full a A2 (escapeHtml (safeString g v)) B
      (hA a (List.mem_cons_self _ _))
      (fun c hc => hA c (List.mem_cons_of_mem _ hc)) hB hElt)]
  rw [trimJs_wrap
    ("span>".toList ++ ((a :: A2) ++ ("</span><span style=\x22".toList
      ++ (escapeHtml (safeString g v)
        ++ ("\x22>".toList ++ (B ++ "</span>".toList))))))
    ("<span>".toList ++ ((a :: A2) ++ ("</span><span style=\x22".toList
      ++ (escapeHtml (safeString g v)
        ++ ("\x22>".toList ++ (B ++ "</span".toList))))))
    ("<span>".toList ++ ((a :: A2) ++ ("</span><span style=\x22".toList
      ++ (escapeHtml (safeString g v)
        ++ ("\x22>".toList ++ (B ++ "</span>".toList))))))
    rfl
    (by rw [show ("</span>".toList : Str) = "</span".toList ++ ['>'] from rfl]
        simp [List.append_assoc])]
  rw [replaceAll_single]
  simp only [substChar_append]
  rw [@substChar_of_not_mem '\n' ("<br/>\n".toList) ("<span>".toList) (by decide),
    @substChar_of_not_mem '\n' ("<br/>\n".toList) ("</span><span style=\x22".toList)
      (by decide),
    @substChar_of_not_mem '\n' ("<br/>\n".toList) ("\x22>".toList) (by decide),
    @substChar_of_not_mem '\n' ("<br/>\n".toList) ("</span>".toList) (by decide)]

set_option maxHeartbeats 1600000 in
/-- The HTML formatter\x27s output when the specifier opens the template: the
vacuous first container collapses and only the style container remains. -/
theorem argsToHtml_c_out_nil (g : Heap) (conv : Str → Str) (t : Str) (v : Val)
    (B : Str)
    (hitems : scanTokensWith htmlCls (conv t) = Item.tok 'c' :: B.map Item.chr)
    (hB : ∀ c ∈ B, c ≠ '<') (hne : safeString g v ≠ []) :
    argsToHtml g conv [Val.vstr t, v] =
      "<span style=\x22".toList
        ++ (substChar (escapeHtml (safeString g v)) '\n' ("<br/>\n".toList)
          ++ ("\x22>".toList
            ++ (substChar B '\n' ("<br/>\n".toList) ++ "</span>".toList))) := by
  have hEne : escapeHtml (safeString g v) ≠ [] := escapeHtml_ne_nil hne
  have hElt : ∀ c ∈ escapeHtml (safeString g v), c ≠ '<' :=
    fun c hc h => escapeHtml_no_lt _ (h ▸ hc)
  have hEq2 : ∀ c ∈ escapeHtml (safeString g v), c ≠ '\x22' :=
    fun c hc h => escapeHtml_no_quote _ (h ▸ hc)
  simp only [argsToHtml]
  rw [htmlScan_c g conv t v [] B hitems]
  have hif : (if ((⟨([] : Str) ++ ("</span><span style=\x22".toList
      ++ (escapeHtml (safeString g v) ++ ("\x22>".toList ++ B))),
      2, true⟩ : HState)).hasStyle = true then
        "<span>".toList ++ ((⟨([] : Str) ++ ("</span><span style=\x22".toList
      ++ (escapeHtml (safeString g v) ++ ("\x22>".toList ++ B))),
      2, true⟩ : HState)).out ++ "</span>".toList
      else ((⟨([] : Str) ++ ("</span><span style=\x22".toList
      ++ (escapeHtml (safeString g v) ++ ("\x22>".toList ++ B))),
      2, true⟩ : HState)).out) =
      "<span></span>".toList ++ ("<span style=\x22".toList
      ++ (escapeHtml (safeString g v)
        ++ ("\x22>".toList ++ (B ++ "</span>".toList)))) := by
    rw [if_pos rfl]
    simp only [List.nil_append, List.append_assoc]
    rfl
  rw [hif]
  have hsuf : ' ' :: joinSp (List.map (argToHtml g conv)
      (List.drop ((⟨([] : Str) ++ ("</span><span style=\x22".toList
      ++ (escapeHtml (safeString g v) ++ ("\x22>".toList ++ B))),
      2, true⟩ : HState)).idx [Val.vstr t, v])) = [' '] := rfl
  rw [hsuf]
  have hNM1 : NoMatch ("<span style=\x22\x22>".toList)
      ("<span></span>".toList ++ ("<span style=\x22".toList
      ++ (escapeHtml (safeString g v)
        ++ ("\x22>".toList ++ (B ++ "</span>".toList))))) :=
    noMatch_pat1_full [] (escapeHtml (safeString g v)) B (by simp) hB hElt hEq2 hEne
  rw [replaceAll_of_noMatch _ _ (by decide) _ hNM1]
  rw [replaceAll_head_match _ _ _ (by decide)]
  rw [replaceAll_of_noMatch _ _ (by decide) _
    (noMatch_pat2_core (escapeHtml (safeString g v)) B hB hElt)]
  rw [List.nil_append]
  rw [trimJs_wrap
    ("span style=\x22".toList
      ++ (escapeHtml (safeString g v)
        ++ ("\x22>".toList ++ (B ++ "</span>".toList))))
    ("<span style=\x22".toList
      ++ (escapeHtml (safeString g v)
        ++ ("\x22>".toList ++ (B ++ "</span".toList))))
    ("<span style=\x22".toList
      ++ (escapeHtml (safeString g v)
        ++ ("\x22>".toList ++ (B ++ "</span>".toList))))
    rfl
    (by rw [show ("</span>".toList : Str) = "</span".toList ++ ['>'] from rfl]
        simp [List.append_assoc])]
  rw [replaceAll_single]
  simp only [substChar_append]
  rw [@substChar_of_not_mem '\n' ("<br/>\n".toList) ("<span style=\x22".toList)
      (by decide),
    @substChar_of_not_mem '\n' ("<br/>\n".toList) ("\x22>".toList) (by decide),
    @substChar_of_not_mem '\n' ("<br/>\n".toList) ("</span>".toList) (by decide)]

/-- C1: for every call to the HTML argument formatter whose first (string)
template tokenizes into literal text (free of tag openers) around one `%c`
specifier with a corresponding argument, the argument is placed into the
opened container\x27s style attribute only after HTML-attribute escaping: the
escaped value contains no quote and no angle bracket, and the generated
markup, when parsed, has exactly one style-bearing tag, whose attribute is
exactly the (newline-rewritten) escaped argument — so a style argument
containing `\x22>` cannot terminate the attribute early. -/
theorem claim1_percent_c_style_escaping
    (g : Heap) (conv : Str → Str) (t : Str) (v : Val) (A B : Str)
    (hitems : scanTokensWith htmlCls (conv t) =
      A.map Item.chr ++ Item.tok 'c' :: B.map Item.chr)
    (hA : ∀ c ∈ A, c ≠ '<') (hB : ∀ c ∈ B, c ≠ '<')
    (hsub : "\x22>".toList <:+: safeString g v) :
    (tagsOf (argsToHtml g conv [Val.vstr t, v])).countP isStyleTag = 1 ∧
    (∀ tag ∈ tagsOf (argsToHtml g conv [Val.vstr t, v]), isStyleTag tag = true →
      tag = "span style=\x22".toList
        ++ (substChar (escapeHtml (safeString g v)) '\n' ("<br/>\n".toList)
          ++ ['\x22'])) ∧
    '\x22' ∉ escapeHtml (safeString g v) ∧
    '<' ∉ escapeHtml (safeString g v) ∧
    '>' ∉ escapeHtml (safeString g v) := by
  have hne : safeString g v ≠ [] := by
    have hlen := hsub.length_le
    intro h
    rw [h] at hlen
    simp at hlen
  have hEq2 : ∀ c ∈ escapeHtml (safeString g v), c ≠ '\x22' :=
    fun c hc h => escapeHtml_no_quote _ (h ▸ hc)
  have hTagT : isStyleTag ("span style=\x22".toList
        ++ (substChar (escapeHtml (safeString g v)) '\n' ("<br/>\n".toList)
          ++ ['\x22'])) = true :=
    isPrefixOf_append_self _ _
  cases A with
  | nil =>
    rw [argsToHtml_c_out_nil g conv t v B hitems hB hne]
    rw [tagsOf_core (escapeHtml (safeString g v)) B hEq2 hB]
    refine ⟨?_, ?_, escapeHtml_no_quote _, escapeHtml_no_lt _, escapeHtml_no_gt _⟩
    · simp only [List.countP_cons, List.countP_append, List.countP_nil,
        countP_replicate, hTagT]
      rw [show isStyleTag ("br/".toList) = false from by decide,
        show isStyleTag ("/span".toList) = false from by decide]
      simp
    · intro tag htag _hsty
      simp only [List.mem_cons, List.mem_append, List.mem_replicate,
        List.mem_singleton, List.not_mem_nil, or_false] at htag
      rcases htag with h | ⟨_, h⟩ | h
      · exact h
      · rw [h] at _hsty
        exact absurd _hsty (by decide)
      · rw [h] at _hsty
        exact absurd _hsty (by decide)
  | cons a A2 =>
    rw [argsToHtml_c_out_cons g conv t v a A2 B hitems hA hB hne]
    rw [tagsOf_full (a :: A2) (escapeHtml (safeString g v)) B hA hEq2 hB]
    refine ⟨?_, ?_, escapeHtml_no_quote _, escapeHtml_no_lt _, escapeHtml_no_gt _⟩
    · simp only [List.countP_cons, List.countP_append, List.countP_nil,
        countP_replicate, hTagT]
      rw [show isStyleTag ("br/".toList) = false from by decide,
        show isStyleTag ("/span".toList) = false from by decide,
        show isStyleTag ("span".toList) = false from by decide]
      simp
    · intro tag htag _hsty
      simp only [List.mem_cons, List.mem_append, List.mem_replicate,
        List.mem_singleton, List.not_mem_nil, or_false] at htag
      rcases htag with h | ⟨_, h⟩ | h | h | ⟨_, h⟩ | h
      · rw [h] at _hsty
        exact absurd _hsty (by decide)
      · rw [h] at _hsty
        exact absurd _hsty (by decide)
      · rw [h] at _hsty
        exact absurd _hsty (by decide)
      · exact h
      · rw [h] at _hsty
        exact absurd _hsty (by decide)
      · rw [h] at _hsty
        exact absurd _hsty (by decide)

/-- C1 witness: the template `%cB` with style argument `a\x22>b` — the quote
and bracket are escaped, and the parsed markup has exactly one style tag. -/
theorem claim1_witness :
    ("\x22>".toList <:+: safeString [] (Val.vstr ("a\x22>b".toList))) ∧
    ((tagsOf (argsToHtml [] id
        [Val.vstr ("%cB".toList), Val.vstr ("a\x22>b".toList)])).countP isStyleTag = 1 ∧
      (∀ tag ∈ tagsOf (argsToHtml [] id
          [Val.vstr ("%cB".toList), Val.vstr ("a\x22>b".toList)]),
        isStyleTag tag = true →
        tag = "span style=\x22".toList
          ++ (substChar (escapeHtml (safeString [] (Val.vstr ("a\x22>b".toList)))) '\n'
              ("<br/>\n".toList) ++ ['\x22'])) ∧
      '\x22' ∉ escapeHtml (safeString [] (Val.vstr ("a\x22>b".toList))) ∧
      '<' ∉ escapeHtml (safeString [] (Val.vstr ("a\x22>b".toList))) ∧
      '>' ∉ escapeHtml (safeString [] (Val.vstr ("a\x22>b".toList)))) :=
  ⟨by decide,
   claim1_percent_c_style_escaping [] id ("%cB".toList) (Val.vstr ("a\x22>b".toList))
     [] ("B".toList) (by decide) (by decide) (by decide) (by decide)⟩

end VCSpec
